import Mathlib

/-!
Verification development for the Json-Editor repository
(`src/json_editor/editor.rs`, `src/json_editor/graph.rs`).

The Rust code is shallowly embedded: `serde_json::Value` becomes the
inductive `JsonValue`; the stateful `JsonEditor` and `JsonGraph` structs
become Lean structures with explicit state passing; every fallible or
panicking Rust code path becomes `Option`.  Numeric payloads are kept as
their decimal lexemes (the IEEE-754 bit-level value of a `f64` is outside
the embedding; no claim below depends on it).  Geometry fields
(`position`, `size`, `zoom`, `offset`), display labels and render-only
content are omitted from the graph embedding: the claims treated here
mention only paths, kinds, ids and the interaction state.

`serde_json` itself (its `Map`, serializer and parser) is a dependency of
the repository whose sources and feature configuration (notably
`preserve_order`) are not part of the repository; those primitives are
modelled from the specification where noted.
-/

namespace JsonEd

/-- Embedding of `serde_json::Value`.  Objects are insertion-ordered
association lists (spec §3: "Object key order is insertion order").
Numbers carry their decimal lexeme. -/
inductive JsonValue where
  | null : JsonValue
  | bool (b : Bool) : JsonValue
  | num (lit : String) : JsonValue
  | str (s : String) : JsonValue
  | arr (xs : List JsonValue) : JsonValue
  | obj (kvs : List (String × JsonValue)) : JsonValue

/-- Embedding of `graph.rs` `NodeType`. -/
inductive NodeType where
  | object | array | string | number | boolean | nullType
deriving Repr, DecidableEq

/-- The `NodeType` of a `JsonValue`, as computed throughout `graph.rs`
by matching on the `serde_json::Value` constructor. -/
def kindOf : JsonValue → NodeType
  | .null => .nullType
  | .bool _ => .boolean
  | .num _ => .number
  | .str _ => .string
  | .arr _ => .array
  | .obj _ => .object

/-- Modelled from the spec: `serde_json::Map::get` over the
insertion-ordered map of §3 — first binding of the key. -/
def mapGet : List (String × JsonValue) → String → Option JsonValue
  | [], _ => none
  | (k, v) :: rest, key => if k = key then some v else mapGet rest key

/-- Modelled from the spec: `serde_json::Map::insert` over the
insertion-ordered map of §3 — an existing key keeps its position and has
its value replaced, a fresh key is appended at the end. -/
def mapInsert : List (String × JsonValue) → String → JsonValue → List (String × JsonValue)
  | [], key, v => [(key, v)]
  | (k, w) :: rest, key, v =>
    if k = key then (k, v) :: rest else (k, w) :: mapInsert rest key v

/-- Modelled from the spec: `serde_json::Map::remove` over the
insertion-ordered map of §3 — removes the first binding of the key,
preserving the order of the remaining entries ("key order ... must be
preserved across all mutation operations"). -/
def mapRemove : List (String × JsonValue) → String → List (String × JsonValue)
  | [], _ => []
  | (k, w) :: rest, key =>
    if k = key then rest else (k, w) :: mapRemove rest key

/-- Replace the value bound to a key, keeping its position (used to model
writing through the `&mut` reference `map.get_mut(segment)` returns). -/
def mapSet : List (String × JsonValue) → String → JsonValue → List (String × JsonValue)
  | [], _, _ => []
  | (k, w) :: rest, key, v =>
    if k = key then (k, v) :: rest else (k, w) :: mapSet rest key v

/-- Value of an ASCII decimal digit. -/
def digitVal (c : Char) : Option Nat :=
  if '0' ≤ c ∧ c ≤ '9' then some (c.toNat - 48) else none

def decDigitsVal (cs : List Char) (acc : Nat) : Option Nat :=
  match cs with
  | [] => some acc
  | c :: rest =>
    match digitVal c with
    | some d => decDigitsVal rest (acc * 10 + d)
    | none => none

/-- Embedding of Rust `str::parse::<usize>()` as used on array path
segments: an optional leading `+`, then one or more ASCII digits and
nothing else.  The `usize` overflow failure is not modelled: an index
large enough to overflow is out of bounds of every realizable array, so
navigation fails either way. -/
def parseUsize (s : String) : Option Nat :=
  let cs := match s.data with
    | '+' :: rest => rest
    | rest => rest
  if cs.isEmpty then none else decDigitsVal cs 0

/-- Embedding of `JsonEditor::navigate_to_path_mut` (editor.rs:390-405),
read-only form: walk the segments, descending into objects by key and
into arrays by parsed index, failing on a missing key, an unparsable or
out-of-bounds index, or a primitive. -/
def navigateToPath : JsonValue → List String → Option JsonValue
  | v, [] => some v
  | .obj kvs, seg :: rest =>
    match mapGet kvs seg with
    | some child => navigateToPath child rest
    | none => none
  | .arr xs, seg :: rest =>
    match parseUsize seg with
    | some i =>
      match xs[i]? with
      | some child => navigateToPath child rest
      | none => none
    | none => none
  | _, _ :: _ => none

/-- Functional rendering of "navigate to a `&mut` location and mutate
through it": apply `f` at the value addressed by the path, rebuilding the
spine.  `none` when navigation fails or `f` itself fails. -/
def modifyAtPath (f : JsonValue → Option JsonValue) :
    JsonValue → List String → Option JsonValue
  | v, [] => f v
  | .obj kvs, seg :: rest =>
    match mapGet kvs seg with
    | some child =>
      match modifyAtPath f child rest with
      | some child' => some (.obj (mapSet kvs seg child'))
      | none => none
    | none => none
  | .arr xs, seg :: rest =>
    match parseUsize seg with
    | some i =>
      match xs[i]? with
      | some child =>
        match modifyAtPath f child rest with
        | some child' => some (.arr (xs.set i child'))
        | none => none
      | none => none
    | none => none
  | _, _ :: _ => none

/-- Overwrite the value at a path (navigate then assign through the
reference). -/
def setAtPath (v : JsonValue) (path : List String) (nv : JsonValue) :
    Option JsonValue :=
  modifyAtPath (fun _ => some nv) v path

/-- No key occurs twice in an association list. -/
def nodupKeys : List (String × JsonValue) → Bool
  | [] => true
  | (k, _) :: rest => !(rest.any (fun p => p.1 = k)) && nodupKeys rest

mutual

/-- Well-formedness carried by `serde_json::Map`: every object in the
tree has pairwise distinct keys.  The Lean association-list type is wider
than the Rust map type; this predicate cuts it back down. -/
def wf : JsonValue → Bool
  | .null | .bool _ | .num _ | .str _ => true
  | .arr xs => wfList xs
  | .obj kvs => nodupKeys kvs && wfPairs kvs

/-- `wf` on every element of an array. -/
def wfList : List JsonValue → Bool
  | [] => true
  | x :: xs => wf x && wfList xs

/-- `wf` on every value of an object. -/
def wfPairs : List (String × JsonValue) → Bool
  | [] => true
  | (_, v) :: rest => wf v && wfPairs rest

end

end JsonEd

namespace JsonEd

/-! ### Value coercion (editor.rs `update_value_at_path` / `add_value_at_path`) -/

def isDigit (c : Char) : Bool := '0' ≤ c && c ≤ '9'

/-- Longest prefix of ASCII digits, and the remainder. -/
def spanDigits : List Char → List Char × List Char
  | [] => ([], [])
  | c :: rest =>
    if isDigit c then
      let (ds, r) := spanDigits rest
      (c :: ds, r)
    else ([], c :: rest)

def stripSign : List Char → List Char
  | '+' :: r => r
  | '-' :: r => r
  | r => r

def asciiLower (c : Char) : Char :=
  if 'A' ≤ c && c ≤ 'Z' then Char.ofNat (c.toNat + 32) else c

/-- The case-insensitive special `f64` lexemes of Rust's `FromStr`. -/
def isSpecialF64 (cs : List Char) : Bool :=
  let l := cs.map asciiLower
  l == "inf".data || l == "infinity".data || l == "nan".data

/-- Exponent tail of the Rust `f64` grammar: optional sign then one or
more digits, ending the input. -/
def f64ExpTail (r : List Char) : Bool :=
  let r1 := stripSign r
  let (ds, rest) := spanDigits r1
  !ds.isEmpty && rest.isEmpty

/-- Mantissa of the Rust `f64` grammar: `Digit+ ('.' Digit*)? | '.' Digit+`.
Returns the remainder, `none` if there is no mantissa. -/
def f64Mantissa (cs : List Char) : Option (List Char) :=
  let (intd, r1) := spanDigits cs
  match r1 with
  | '.' :: r2 =>
    let (fracd, r3) := spanDigits r2
    if intd.isEmpty && fracd.isEmpty then none else some r3
  | _ => if intd.isEmpty then none else some r1

/-- Embedding of `new_value_str.parse::<f64>().is_ok()`: the grammar of
Rust's `f64::from_str` — `Sign? ('inf' | 'infinity' | 'nan' | Number)`
with `Number ::= (Digit+ ('.' Digit*)? | '.' Digit+) (('e'|'E') Sign? Digit+)?`,
the special words case-insensitive. -/
def parsesAsF64 (s : String) : Bool :=
  let cs := stripSign s.data
  if isSpecialF64 cs then true
  else
    match f64Mantissa cs with
    | none => false
    | some r =>
      match r with
      | [] => true
      | 'e' :: r2 => f64ExpTail r2
      | 'E' :: r2 => f64ExpTail r2
      | _ => false

/-- Decimal mantissa value and decimal exponent of a (numeric, non-special)
`f64` lexeme: `"12.34e-5"` yields `(1234, -7)`. -/
def f64LexemeParts (s : String) : Nat × Int :=
  let cs := stripSign s.data
  let (intd, r1) := spanDigits cs
  let (fracd, r2) :=
    match r1 with
    | '.' :: r => spanDigits r
    | _ => ([], r1)
  let m := (decDigitsVal (intd ++ fracd) 0).getD 0
  let expv : Int :=
    match r2 with
    | 'e' :: r3 | 'E' :: r3 =>
      match r3 with
      | '-' :: r4 => -(Int.ofNat ((decDigitsVal (spanDigits r4).1 0).getD 0))
      | '+' :: r4 => Int.ofNat ((decDigitsVal (spanDigits r4).1 0).getD 0)
      | r4 => Int.ofNat ((decDigitsVal (spanDigits r4).1 0).getD 0)
    | _ => 0
  (m, expv - fracd.length)

/-- Smallest decimal magnitude that rounds (to-nearest-even) to an IEEE-754
double infinity: `2^1024 - 2^970`. -/
def f64OverflowThreshold : Nat := 2 ^ 970 * (2 ^ 54 - 1)

/-- Whether a lexeme accepted by `parsesAsF64` parses to a finite `f64`:
not a NaN/infinity word, and its exact decimal magnitude is below the
rounding threshold to infinity. -/
def f64LexemeFinite (s : String) : Bool :=
  if isSpecialF64 (stripSign s.data) then false
  else
    let (m, e) := f64LexemeParts s
    if 0 ≤ e then m * 10 ^ e.toNat < f64OverflowThreshold
    else m < f64OverflowThreshold * 10 ^ (-e).toNat

/-- Embedding of the value-coercion cascade of `update_value_at_path`
(editor.rs:355-370) and `add_value_at_path` (editor.rs:470-485):
(1) a raw that starts and ends with `"` becomes a String of the inner
text verbatim — on the one-character raw `"` the Rust slice
`&s[1..len-1]` is `[1..0]` and panics, modelled as `none`;
(2) else a raw accepted by `f64::from_str` goes through
`serde_json::json!(num)`, which stores Null when the parsed value is
non-finite (NaN/infinity word or decimal overflow) and a Number
otherwise (the payload kept here as the lexeme);
(3)-(4) else exact, case-sensitive comparisons with `true`, `false`,
`null`; (5) else a String of the raw verbatim. -/
def parseEditedText (raw : String) : Option JsonValue :=
  if raw.data.head? == some '"' && raw.data.getLast? == some '"' then
    if raw.data.length == 1 then none
    else some (.str ⟨(raw.data.drop 1).dropLast⟩)
  else if parsesAsF64 raw then
    if f64LexemeFinite raw then some (.num raw) else some .null
  else if raw == "true" then some (.bool true)
  else if raw == "false" then some (.bool false)
  else if raw == "null" then some .null
  else some (.str raw)

end JsonEd

namespace JsonEd

/-! ### Canonical serialization and parsing.

`apply_pretty_print` / `apply_compact` (editor.rs:298-317) and every
mutation commit call `serde_json::to_string_pretty` / `to_string`, and
`validate` (editor.rs:267-280) calls `serde_json::from_str`.  These are
library code outside the repository; the definitions below are modelled
from the spec's canonical serialization contract (§6: fixed 2-space
indent, compact form without insignificant whitespace, both round-trip
through parse) and the JSON grammar. -/

def hexDig : Nat → Char
  | 0 => '0' | 1 => '1' | 2 => '2' | 3 => '3' | 4 => '4'
  | 5 => '5' | 6 => '6' | 7 => '7' | 8 => '8' | 9 => '9'
  | 10 => 'a' | 11 => 'b' | 12 => 'c' | 13 => 'd' | 14 => 'e'
  | _ => 'f'

/-- Modelled from the spec: JSON string escaping as the serializer emits
it — `"` and `\` escaped, the named control escapes, `\u00XX` for the
remaining control characters, everything else verbatim. -/
def escapeChar (c : Char) : List Char :=
  if c = '"' then ['\\', '"']
  else if c = '\\' then ['\\', '\\']
  else if c.toNat = 8 then ['\\', 'b']
  else if c.toNat = 9 then ['\\', 't']
  else if c.toNat = 10 then ['\\', 'n']
  else if c.toNat = 12 then ['\\', 'f']
  else if c.toNat = 13 then ['\\', 'r']
  else if c.toNat < 32 then
    ['\\', 'u', '0', '0', hexDig (c.toNat / 16), hexDig (c.toNat % 16)]
  else [c]

def escapeString : List Char → List Char
  | [] => []
  | c :: rest => escapeChar c ++ escapeString rest

/-- A JSON string literal: quote, escaped content, quote. -/
def printString (s : String) : List Char :=
  '"' :: (escapeString s.data ++ ['"'])

mutual

/-- Modelled from the spec: the compact serialization
(`serde_json::to_string`) — no whitespace outside string literals. -/
def compactVal : JsonValue → List Char
  | .null => ['n', 'u', 'l', 'l']
  | .bool false => ['f', 'a', 'l', 's', 'e']
  | .bool true => ['t', 'r', 'u', 'e']
  | .num lit => lit.data
  | .str s => printString s
  | .arr [] => ['[', ']']
  | .arr (x :: xs) => '[' :: (compactVal x ++ compactElems xs ++ [']'])
  | .obj [] => ['{', '}']
  | .obj (p :: ps) => '{' :: (compactMember p ++ compactMembers ps ++ ['}'])

def compactElems : List JsonValue → List Char
  | [] => []
  | x :: xs => ',' :: (compactVal x ++ compactElems xs)

def compactMember : String × JsonValue → List Char
  | (k, v) => printString k ++ (':' :: compactVal v)

def compactMembers : List (String × JsonValue) → List Char
  | [] => []
  | p :: ps => ',' :: (compactMember p ++ compactMembers ps)

end

def indentC (n : Nat) : List Char := List.replicate n ' '

mutual

/-- Modelled from the spec: the pretty serialization
(`serde_json::to_string_pretty`) — a fixed 2-space indent per nesting
level, one element or member per line, `": "` after keys, empty
containers printed inline. -/
def prettyVal (ind : Nat) : JsonValue → List Char
  | .arr [] => ['[', ']']
  | .arr (x :: xs) =>
    '[' :: '\n' :: (indentC (ind + 2) ++ prettyVal (ind + 2) x
      ++ prettyElems (ind + 2) xs ++ '\n' :: (indentC ind ++ [']']))
  | .obj [] => ['{', '}']
  | .obj (p :: ps) =>
    '{' :: '\n' :: (indentC (ind + 2) ++ prettyMember (ind + 2) p
      ++ prettyMembers (ind + 2) ps ++ '\n' :: (indentC ind ++ ['}']))
  | v => compactVal v

def prettyElems (ind : Nat) : List JsonValue → List Char
  | [] => []
  | x :: xs =>
    ',' :: '\n' :: (indentC ind ++ prettyVal ind x ++ prettyElems ind xs)

def prettyMember (ind : Nat) : String × JsonValue → List Char
  | (k, v) => printString k ++ ':' :: ' ' :: prettyVal ind v

def prettyMembers (ind : Nat) : List (String × JsonValue) → List Char
  | [] => []
  | p :: ps =>
    ',' :: '\n' :: (indentC ind ++ prettyMember ind p ++ prettyMembers ind ps)

end

/-- `serde_json::to_string_pretty` at top level. -/
def prettyPrintValue (v : JsonValue) : String := ⟨prettyVal 0 v⟩

/-- `serde_json::to_string` at top level. -/
def compactPrint (v : JsonValue) : String := ⟨compactVal v⟩

end JsonEd

namespace JsonEd

/-- JSON insignificant whitespace. -/
def isWs (c : Char) : Bool := c = ' ' || c = '\t' || c = '\n' || c = '\r'

def skipWs : List Char → List Char
  | ' ' :: r => skipWs r
  | '\t' :: r => skipWs r
  | '\n' :: r => skipWs r
  | '\r' :: r => skipWs r
  | l => l

def hexVal (c : Char) : Option Nat :=
  if '0' ≤ c ∧ c ≤ '9' then some (c.toNat - 48)
  else if 'a' ≤ c ∧ c ≤ 'f' then some (c.toNat - 87)
  else if 'A' ≤ c ∧ c ≤ 'F' then some (c.toNat - 55)
  else none

/-- Modelled from the spec: string-literal body parsing (after the
opening quote), handling the standard escapes; `\uXXXX` is decoded as a
single scalar (surrogate pairs are not modelled, the serializer never
emits them). -/
def pString : List Char → Option (List Char × List Char)
  | [] => none
  | '"' :: r => some ([], r)
  | '\\' :: '"' :: r => (pString r).map (fun p => ('"' :: p.1, p.2))
  | '\\' :: '\\' :: r => (pString r).map (fun p => ('\\' :: p.1, p.2))
  | '\\' :: '/' :: r => (pString r).map (fun p => ('/' :: p.1, p.2))
  | '\\' :: 'b' :: r => (pString r).map (fun p => (Char.ofNat 8 :: p.1, p.2))
  | '\\' :: 'f' :: r => (pString r).map (fun p => (Char.ofNat 12 :: p.1, p.2))
  | '\\' :: 'n' :: r => (pString r).map (fun p => ('\n' :: p.1, p.2))
  | '\\' :: 'r' :: r => (pString r).map (fun p => (Char.ofNat 13 :: p.1, p.2))
  | '\\' :: 't' :: r => (pString r).map (fun p => ('\t' :: p.1, p.2))
  | '\\' :: 'u' :: h1 :: h2 :: h3 :: h4 :: r =>
    match hexVal h1, hexVal h2, hexVal h3, hexVal h4 with
    | some a, some b, some c, some d =>
      (pString r).map (fun p => (Char.ofNat (((a * 16 + b) * 16 + c) * 16 + d) :: p.1, p.2))
    | _, _, _, _ => none
  | '\\' :: _ => none
  | c :: r => (pString r).map (fun p => (c :: p.1, p.2))

/-- Characters that can occur in a JSON number lexeme. -/
def isNumChar (c : Char) : Bool :=
  isDigit c || c = '.' || c = 'e' || c = 'E' || c = '+' || c = '-'

/-- Longest prefix of number characters, and the remainder. -/
def spanNum : List Char → List Char × List Char
  | [] => ([], [])
  | c :: rest =>
    if isNumChar c then
      let (ds, r) := spanNum rest
      (c :: ds, r)
    else ([], c :: rest)

/-- Validity of a complete JSON number lexeme:
`'-'? Digit+ ('.' Digit+)? (('e'|'E') Sign? Digit+)?`.  Leading-zero
rejection is not modelled (the serializer never emits leading zeros). -/
def jsonNumOk (cs : List Char) : Bool :=
  let cs1 := if cs.head? = some '-' then cs.tail else cs
  let (intd, r1) := spanDigits cs1
  if intd.isEmpty then false
  else
    let fracRes : Option (List Char) :=
      if r1.head? = some '.' then
        let (fd, r2) := spanDigits r1.tail
        if fd.isEmpty then none else some r2
      else some r1
    match fracRes with
    | none => false
    | some r2 =>
      if r2.isEmpty then true
      else if r2.head? = some 'e' || r2.head? = some 'E' then
        let r3 :=
          if r2.tail.head? = some '+' || r2.tail.head? = some '-' then
            r2.tail.tail
          else r2.tail
        let (ds, r4) := spanDigits r3
        !ds.isEmpty && r4.isEmpty
      else false

/-- Modelled from the spec: JSON number lexing by maximal munch of
number characters followed by grammar validation of the munched
lexeme. -/
def pNum (l : List Char) : Option (List Char × List Char) :=
  let (cs, r) := spanNum l
  if jsonNumOk cs then some (cs, r) else none

mutual

/-- Modelled from the spec: recursive-descent JSON value parsing
(`serde_json::from_str`), fuel-indexed for termination.  Objects are
accumulated with `mapInsert`, mirroring repeated `Map::insert`. -/
def pVal : Nat → List Char → Option (JsonValue × List Char)
  | 0, _ => none
  | fuel + 1, l =>
    match skipWs l with
    | 'n' :: 'u' :: 'l' :: 'l' :: r => some (.null, r)
    | 't' :: 'r' :: 'u' :: 'e' :: r => some (.bool true, r)
    | 'f' :: 'a' :: 'l' :: 's' :: 'e' :: r => some (.bool false, r)
    | '"' :: r => (pString r).map (fun p => (.str ⟨p.1⟩, p.2))
    | '[' :: r =>
      let l2 := skipWs r
      if l2.head? = some ']' then some (.arr [], l2.tail)
      else (pElems fuel l2).map (fun p => (.arr p.1, p.2))
    | '{' :: r =>
      let l2 := skipWs r
      if l2.head? = some '}' then some (.obj [], l2.tail)
      else (pMembers fuel l2 []).map (fun p => (.obj p.1, p.2))
    | c :: r =>
      if c = '-' || isDigit c then
        (pNum (c :: r)).map (fun p => (.num ⟨p.1⟩, p.2))
      else none
    | [] => none

/-- One-or-more comma-separated array elements up to `]`. -/
def pElems : Nat → List Char → Option (List JsonValue × List Char)
  | 0, _ => none
  | fuel + 1, l =>
    match pVal fuel l with
    | some (v, r) =>
      match skipWs r with
      | ',' :: r2 => (pElems fuel r2).map (fun p => (v :: p.1, p.2))
      | ']' :: r2 => some ([v], r2)
      | _ => none
    | none => none

/-- One-or-more `"key": value` members up to `}`, inserted into `acc`. -/
def pMembers : Nat → List Char → List (String × JsonValue) →
    Option (List (String × JsonValue) × List Char)
  | 0, _, _ => none
  | fuel + 1, l, acc =>
    match skipWs l with
    | '"' :: r =>
      match pString r with
      | some (kcs, r2) =>
        match skipWs r2 with
        | ':' :: r3 =>
          match pVal fuel r3 with
          | some (v, r4) =>
            let acc' := mapInsert acc ⟨kcs⟩ v
            match skipWs r4 with
            | ',' :: r5 => pMembers fuel r5 acc'
            | '}' :: r5 => some (acc', r5)
            | _ => none
          | none => none
        | _ => none
      | none => none
    | _ => none

end

/-- Modelled from the spec: `serde_json::from_str::<Value>` — one value,
then only trailing whitespace. -/
def parseJson (s : String) : Option JsonValue :=
  match pVal (3 * s.length + 3) s.data with
  | some (v, rest) => if (skipWs rest).isEmpty then some v else none
  | none => none

end JsonEd

namespace JsonEd

/-! ### The editor (editor.rs `JsonEditor`) -/

/-- Embedding of the `JsonEditor` struct (editor.rs:15-42).  The
render-only fields (`pretty_print`, `indent_size`, `show_line_numbers`,
`target_line`, `clicked_line`, `view_mode`) are omitted: no claim
mentions them and no embedded operation touches them. -/
structure JsonEditor where
  text : String
  previous_text : String
  parsed_value : Option JsonValue
  error_message : Option String
  undo_stack : List String
  redo_stack : List String
  max_history : Nat

/-- Modelled from the spec: the text of `serde_json`'s parse error is
abstracted — the embedding only tracks that a message is recorded
(`format!("JSON Error: {}", e)`), never its exact wording. -/
def validationErrorFor (_t : String) : String := "JSON Error"

/-- Embedding of `JsonEditor::validate` (editor.rs:267-280). -/
def validate (e : JsonEditor) : JsonEditor :=
  match parseJson e.text with
  | some v => { e with parsed_value := some v, error_message := none }
  | none => { e with
              parsed_value := none
              error_message := some (validationErrorFor e.text) }

/-- Embedding of `JsonEditor::with_text` (editor.rs:86-104):
`max_history` is 100, both stacks empty, then `validate`. -/
def JsonEditor.with_text (t : String) : JsonEditor :=
  validate { text := t, previous_text := t, parsed_value := none,
             error_message := none, undo_stack := [], redo_stack := [],
             max_history := 100 }

/-- Embedding of `JsonEditor::push_undo` (editor.rs:120-126): push the
current text, evict the oldest entry when over `max_history`, clear the
redo stack. -/
def push_undo (e : JsonEditor) : JsonEditor :=
  let u := e.undo_stack ++ [e.text]
  let u := if u.length > e.max_history then u.drop 1 else u
  { e with undo_stack := u, redo_stack := [] }

/-- Embedding of `JsonEditor::set_text` (editor.rs:112-117). -/
def set_text (e : JsonEditor) (t : String) : JsonEditor :=
  validate { push_undo e with text := t }

/-- Embedding of `JsonEditor::undo` (editor.rs:129-140): pop the top of
the undo stack (the end of the `Vec`), push the current text onto redo,
restore and re-validate; `false` when the stack is empty. -/
def undo (e : JsonEditor) : JsonEditor × Bool :=
  match e.undo_stack.getLast? with
  | some previous =>
    (validate { e with
        redo_stack := e.redo_stack ++ [e.text],
        undo_stack := e.undo_stack.dropLast,
        text := previous,
        previous_text := previous }, true)
  | none => (e, false)

/-- Embedding of `JsonEditor::redo` (editor.rs:143-154); note the source
pushes onto the undo stack without an eviction check here. -/
def redo (e : JsonEditor) : JsonEditor × Bool :=
  match e.redo_stack.getLast? with
  | some next =>
    (validate { e with
        undo_stack := e.undo_stack ++ [e.text],
        redo_stack := e.redo_stack.dropLast,
        text := next,
        previous_text := next }, true)
  | none => (e, false)

/-- The shared success-commit block of the four path mutations
(e.g. editor.rs:375-383): `push_undo` (with the pre-mutation text),
regenerate the text by pretty-printing the mutated clone, install the
clone as the parsed value, clear the error. -/
def commitValue (e : JsonEditor) (v2 : JsonValue) : JsonEditor :=
  let pretty := prettyPrintValue v2
  { push_undo e with
    text := pretty
    previous_text := pretty
    parsed_value := some v2
    error_message := none }

/-- Embedding of `JsonEditor::update_value_at_path` (editor.rs:350-387):
clone the parsed value, navigate, coerce the new value text (a panic of
the coercion propagates as `none`), assign through the reference,
commit.  Any failure returns `false` with the editor untouched. -/
def update_value_at_path (e : JsonEditor) (path : List String)
    (newValueStr : String) : Option (JsonEditor × Bool) :=
  match e.parsed_value with
  | none => some (e, false)
  | some v =>
    if (navigateToPath v path).isSome then
      match parseEditedText newValueStr with
      | none => none
      | some nv =>
        match setAtPath v path nv with
        | some v2 => some (commitValue e v2, true)
        | none => some (e, false)
    else some (e, false)

/-- The parent-level removal of `delete_value_at_path`: objects remove a
present key, arrays remove an in-bounds parsed index (shifting later
elements down, `Vec::remove`), anything else fails. -/
def deleteStep (key : String) : JsonValue → Option JsonValue
  | .obj kvs =>
    if (mapGet kvs key).isSome then some (.obj (mapRemove kvs key)) else none
  | .arr xs =>
    match parseUsize key with
    | some i => if i < xs.length then some (.arr (xs.eraseIdx i)) else none
    | none => none
  | _ => none

/-- Embedding of `JsonEditor::delete_value_at_path` (editor.rs:409-459):
an empty path fails, otherwise navigate to the parent of the last
segment and apply `deleteStep`; commit on success. -/
def delete_value_at_path (e : JsonEditor) (path : List String) :
    JsonEditor × Bool :=
  match path.getLast? with
  | none => (e, false)
  | some k =>
    match e.parsed_value with
    | none => (e, false)
    | some v =>
      match modifyAtPath (deleteStep k) v path.dropLast with
      | some v2 => (commitValue e v2, true)
      | none => (e, false)

/-- The container-level insertion of `add_value_at_path`: objects require
a non-empty key and insert it (`Map::insert`, overwriting in place),
arrays append, anything else fails. -/
def addStep (key : String) (nv : JsonValue) : JsonValue → Option JsonValue
  | .obj kvs =>
    if key.isEmpty then none else some (.obj (mapInsert kvs key nv))
  | .arr xs => some (.arr (xs ++ [nv]))
  | _ => none

/-- Embedding of `JsonEditor::add_value_at_path` (editor.rs:465-529):
navigate to the container itself, coerce the value text (before the
container-kind check, so its panic propagates as `none` even for a
primitive target), insert or append, commit. -/
def add_value_at_path (e : JsonEditor) (path : List String) (key : String)
    (valueStr : String) : Option (JsonEditor × Bool) :=
  match e.parsed_value with
  | none => some (e, false)
  | some v =>
    if (navigateToPath v path).isSome then
      match parseEditedText valueStr with
      | none => none
      | some nv =>
        match modifyAtPath (addStep key nv) v path with
        | some v2 => some (commitValue e v2, true)
        | none => some (e, false)
    else some (e, false)

/-- The object-level key rename of `rename_key_at_path`: the old key must
be present, a different already-present new key is a conflict; on
success the old binding is removed and the value re-inserted under the
new key (which therefore moves to the end of the object). -/
def renameStep (oldKey newKey : String) : JsonValue → Option JsonValue
  | .obj kvs =>
    match mapGet kvs oldKey with
    | none => none
    | some ov =>
      if (mapGet kvs newKey).isSome && oldKey != newKey then none
      else some (.obj (mapInsert (mapRemove kvs oldKey) newKey ov))
  | _ => none

/-- Embedding of `JsonEditor::rename_key_at_path` (editor.rs:534-578). -/
def rename_key_at_path (e : JsonEditor) (path : List String)
    (oldKey newKey : String) : JsonEditor × Bool :=
  match e.parsed_value with
  | none => (e, false)
  | some v =>
    match modifyAtPath (renameStep oldKey newKey) v path with
    | some v2 => (commitValue e v2, true)
    | none => (e, false)

end JsonEd

namespace JsonEd

/-! ### The graph (graph.rs `JsonGraph`) -/

def digitChar (d : Nat) : Char := Char.ofNat (48 + d)

/-- Decimal digits of a natural number, most significant first
(embedding of Rust `usize::to_string` on array indices). -/
def natDigits (n : Nat) : List Char :=
  if n < 10 then [digitChar n]
  else natDigits (n / 10) ++ [digitChar (n % 10)]
decreasing_by exact Nat.div_lt_self (by omega) (by omega)

def natToString (n : Nat) : String := ⟨natDigits n⟩

/-- Embedding of `EditingCell` (graph.rs:94-103). -/
structure EditingCell where
  node_id : Nat
  key : String
  text : String
  value_type : NodeType

/-- Embedding of `AddingState` (graph.rs:107-118). -/
structure AddingState where
  node_id : Nat
  is_object : Bool
  key : String
  value : String
  value_type : NodeType

/-- Embedding of `RenamingKey` (graph.rs:122-129). -/
structure RenamingKey where
  node_id : Nat
  old_key : String
  new_key : String

/-- Embedding of `ContextMenuState` (graph.rs:133-146); the `position`
field is geometry and omitted. -/
structure ContextMenuState where
  node_id : Nat
  row_key : Option String
  is_object : Bool
  is_primitive : Bool
  value_type : Option NodeType

/-- Embedding of `ModifyOperation` (graph.rs:163-172). -/
inductive ModifyOperation where
  | update (new_value : String)
  | delete
  | add (key value : String)
  | rename (old_key new_key : String)

/-- Embedding of `EditResult` (graph.rs:176-181). -/
structure EditResult where
  json_path : List String
  operation : ModifyOperation

/-- Embedding of `GraphNode` (graph.rs:7-22).  The geometry (`position`,
`size`) and the render-only `label` and `content` are omitted; the
claims treated here use only `id`, `node_type` and `json_path`. -/
structure GraphNode where
  id : Nat
  node_type : NodeType
  json_path : List String

/-- Embedding of `GraphEdge` (graph.rs:86-90); `from` is a Lean keyword,
so the endpoints are `fromId`/`toId`. -/
structure GraphEdge where
  fromId : Nat
  toId : Nat
  label : Option String

/-- Embedding of the `JsonGraph` struct (graph.rs:184-206), without the
view geometry (`zoom`, `offset`, `dragging`). -/
structure JsonGraph where
  nodes : List GraphNode
  edges : List GraphEdge
  next_id : Nat
  selected_node : Option Nat
  editing_cell : Option EditingCell
  adding_state : Option AddingState
  renaming_key : Option RenamingKey
  context_menu : Option ContextMenuState
  pending_edit : Option EditResult

/-- `value.is_object() || value.is_array()` — the child filter of the
builder: only containers become their own nodes. -/
def isContainer : JsonValue → Bool
  | .obj _ | .arr _ => true
  | _ => false

mutual

/-- Embedding of `JsonGraph::build_node` (graph.rs:254-435): assign the
next id (pre-order), append the node with its kind and path, add the
edge from the parent, then recurse into the container children in order,
skipping primitives.  The returned subtree width, positions and sizes
are geometry and omitted; they do not affect the node/edge lists, ids or
paths. -/
def buildNode (v : JsonValue) (parentId : Option Nat)
    (edgeLabel : Option String) (path : List String) (st : JsonGraph) :
    JsonGraph :=
  let nodeId := st.next_id
  let node : GraphNode := { id := nodeId, node_type := kindOf v, json_path := path }
  let st1 := { st with nodes := st.nodes ++ [node], next_id := nodeId + 1 }
  let st2 :=
    match parentId with
    | some p => { st1 with
        edges := st1.edges ++ [{ fromId := p, toId := nodeId, label := edgeLabel }] }
    | none => st1
  match v with
  | .obj kvs => buildObjChildren kvs nodeId path st2
  | .arr xs => buildArrChildren xs 0 nodeId path st2
  | _ => st2

/-- The object-child loop of `build_node` (graph.rs:385-404). -/
def buildObjChildren (kvs : List (String × JsonValue)) (pid : Nat)
    (path : List String) (st : JsonGraph) : JsonGraph :=
  match kvs with
  | [] => st
  | (k, c) :: rest =>
    let st' := if isContainer c then buildNode c (some pid) (some k) (path ++ [k]) st else st
    buildObjChildren rest pid path st'

/-- The array-child loop of `build_node` (graph.rs:405-424), with the
running index of `enumerate`. -/
def buildArrChildren (xs : List JsonValue) (idx : Nat) (pid : Nat)
    (path : List String) (st : JsonGraph) : JsonGraph :=
  match xs with
  | [] => st
  | c :: rest =>
    let st' :=
      if isContainer c then
        buildNode c (some pid) (some ("[" ++ natToString idx ++ "]"))
          (path ++ [natToString idx]) st
      else st
    buildArrChildren rest (idx + 1) pid path st'

end

/-- Embedding of `JsonGraph::build_from_json` (graph.rs:233-250): clear
the node and edge lists, reset the id counter and every piece of
interaction state, return early on `Null`, otherwise build from the
root. -/
def build_from_json (g : JsonGraph) (v : JsonValue) : JsonGraph :=
  let g1 : JsonGraph :=
    { g with
      nodes := []
      edges := []
      next_id := 0
      selected_node := none
      editing_cell := none
      adding_state := none
      renaming_key := none
      context_menu := none
      pending_edit := none }
  match v with
  | .null => g1
  | _ => buildNode v none none [] g1

/-- The common-prefix length of two paths
(`zip ... take_while(|(a, b)| a == b).count()`, graph.rs:509-514). -/
def commonPrefixLen : List String → List String → Nat
  | x :: xs, y :: ys => if x = y then commonPrefixLen xs ys + 1 else 0
  | _, _ => 0

/-- The best-match loop of `select_by_path` (graph.rs:504-520): keep the
first node whose common-prefix length is positive and strictly larger
than the best so far. -/
def bestLoop (path : List String) :
    List GraphNode → Option GraphNode × Nat → Option GraphNode × Nat
  | [], acc => acc
  | n :: rest, (bm, bl) =>
    let ml := commonPrefixLen n.json_path path
    if ml > 0 && ml > bl then bestLoop path rest (some n, ml)
    else bestLoop path rest (bm, bl)

/-- Embedding of `JsonGraph::select_by_path` (graph.rs:490-532): an
exact path match (first in list order) wins; otherwise the first node
with the strictly longest positive common prefix; otherwise `false`
with the selection untouched. -/
def select_by_path (g : JsonGraph) (path : List String) : JsonGraph × Bool :=
  match g.nodes.find? (fun n => n.json_path == path) with
  | some n => ({ g with selected_node := some n.id }, true)
  | none =>
    match bestLoop path g.nodes (none, 0) with
    | (some n, _) => ({ g with selected_node := some n.id }, true)
    | (none, _) => (g, false)

end JsonEd

namespace JsonEd

/-! ### Lemmas: failure paths leave the editor untouched -/

lemma update_false_eq {e e' : JsonEditor} {path : List String} {s : String}
    (h : update_value_at_path e path s = some (e', false)) : e' = e := by
  unfold update_value_at_path at h
  split at h
  · simp_all
  · split at h
    · split at h
      · exact absurd h (by simp)
      · split at h
        · simp_all
        · simp_all
    · simp_all

lemma delete_false_eq {e e' : JsonEditor} {path : List String}
    (h : delete_value_at_path e path = (e', false)) : e' = e := by
  unfold delete_value_at_path at h
  split at h
  · simp_all
  · split at h
    · simp_all
    · split at h
      · simp_all
      · simp_all

lemma add_false_eq {e e' : JsonEditor} {path : List String} {key s : String}
    (h : add_value_at_path e path key s = some (e', false)) : e' = e := by
  unfold add_value_at_path at h
  split at h
  · simp_all
  · split at h
    · split at h
      · exact absurd h (by simp)
      · split at h
        · simp_all
        · simp_all
    · simp_all

lemma rename_false_eq {e e' : JsonEditor} {path : List String} {ok nk : String}
    (h : rename_key_at_path e path ok nk = (e', false)) : e' = e := by
  unfold rename_key_at_path at h
  split at h
  · simp_all
  · split at h
    · simp_all
    · simp_all

end JsonEd

namespace JsonEd

/-- **C1** — Atomicity of path mutations: for every current editor state
and every path/key/value argument, if `update_value_at_path`,
`delete_value_at_path`, `add_value_at_path` or `rename_key_at_path`
returns `false`, the editor is exactly as it was before the call — in
particular its text, parsed value, error message, undo stack and redo
stack; the operation mutates only a detached clone and commits nothing
on failure. -/
theorem claim1_mutation_atomicity (e : JsonEditor) (path : List String)
    (s key oldKey newKey : String) :
    (∀ e', update_value_at_path e path s = some (e', false) → e' = e) ∧
    (∀ e', delete_value_at_path e path = (e', false) → e' = e) ∧
    (∀ e', add_value_at_path e path key s = some (e', false) → e' = e) ∧
    (∀ e', rename_key_at_path e path oldKey newKey = (e', false) → e' = e) :=
  ⟨fun _ h => update_false_eq h, fun _ h => delete_false_eq h,
   fun _ h => add_false_eq h, fun _ h => rename_false_eq h⟩

/-- Witness for C1 at a concrete failing call: deleting the root of
`[1,2,3]` fails and returns the editor unchanged. -/
theorem claim1_mutation_atomicity_witness :
    (delete_value_at_path (JsonEditor.with_text "[1,2,3]") []).1 =
      JsonEditor.with_text "[1,2,3]" :=
  (claim1_mutation_atomicity (JsonEditor.with_text "[1,2,3]") [] "x" "k" "o" "n").2.1
    (delete_value_at_path (JsonEditor.with_text "[1,2,3]") []).1 rfl

end JsonEd

namespace JsonEd

/-! ### Lemmas: history stack behavior -/

lemma validate_undo_stack (e : JsonEditor) :
    (validate e).undo_stack = e.undo_stack := by
  unfold validate; split <;> rfl

lemma validate_redo_stack (e : JsonEditor) :
    (validate e).redo_stack = e.redo_stack := by
  unfold validate; split <;> rfl

lemma validate_max_history (e : JsonEditor) :
    (validate e).max_history = e.max_history := by
  unfold validate; split <;> rfl

lemma push_undo_redo_stack (e : JsonEditor) : (push_undo e).redo_stack = [] := rfl

lemma push_undo_max_history (e : JsonEditor) :
    (push_undo e).max_history = e.max_history := rfl

lemma push_undo_stack_lt {e : JsonEditor}
    (h : e.undo_stack.length < e.max_history) :
    (push_undo e).undo_stack = e.undo_stack ++ [e.text] := by
  unfold push_undo
  simp only [List.length_append, List.length_cons, List.length_nil]
  rw [if_neg (by omega)]

lemma push_undo_stack_full {e : JsonEditor}
    (h : e.max_history ≤ e.undo_stack.length) :
    (push_undo e).undo_stack = (e.undo_stack ++ [e.text]).drop 1 := by
  unfold push_undo
  simp only [List.length_append, List.length_cons, List.length_nil]
  rw [if_pos (by omega)]

lemma set_text_redo_stack (e : JsonEditor) (t : String) :
    (set_text e t).redo_stack = [] := by
  unfold set_text
  rw [validate_redo_stack]
  exact push_undo_redo_stack e

lemma set_text_undo_stack (e : JsonEditor) (t : String) :
    (set_text e t).undo_stack = (push_undo e).undo_stack := by
  unfold set_text
  rw [validate_undo_stack]

lemma set_text_max_history (e : JsonEditor) (t : String) :
    (set_text e t).max_history = e.max_history := by
  unfold set_text
  rw [validate_max_history, push_undo_max_history]

lemma set_text_len {e : JsonEditor} {t : String} (h100 : e.max_history = 100)
    (h : e.undo_stack.length ≤ 100) :
    (set_text e t).undo_stack.length = min (e.undo_stack.length + 1) 100 := by
  rw [set_text_undo_stack]
  rcases Nat.lt_or_ge e.undo_stack.length 100 with hlt | hge
  · rw [push_undo_stack_lt (by omega)]
    simp only [List.length_append, List.length_cons, List.length_nil]
    omega
  · rw [push_undo_stack_full (by omega)]
    simp only [List.length_drop, List.length_append, List.length_cons, List.length_nil]
    omega

lemma foldl_set_text_len :
    ∀ (ts : List String) (e : JsonEditor), e.max_history = 100 →
      e.undo_stack.length ≤ 100 →
      (ts.foldl set_text e).undo_stack.length =
        min (e.undo_stack.length + ts.length) 100 := by
  intro ts
  induction ts with
  | nil => intro e _ h; simpa using by omega
  | cons t ts ih =>
    intro e h100 h
    have h1 : (set_text e t).max_history = 100 := by rw [set_text_max_history, h100]
    have h2 := set_text_len (t := t) h100 h
    have h3 : (set_text e t).undo_stack.length ≤ 100 := by omega
    simp only [List.foldl_cons]
    rw [ih (set_text e t) h1 h3, h2]
    simp only [List.length_cons]
    omega

/-- Iterate `undo`, collecting the returned success flags in call order. -/
def undoTimes : Nat → JsonEditor → JsonEditor × List Bool
  | 0, e => (e, [])
  | n + 1, e =>
    let p := undo e
    let q := undoTimes n p.1
    (q.1, p.2 :: q.2)

lemma undo_of_ne_nil {e : JsonEditor} (h : e.undo_stack ≠ []) :
    (undo e).2 = true ∧ (undo e).1.undo_stack = e.undo_stack.dropLast := by
  unfold undo
  cases hg : e.undo_stack.getLast? with
  | none => exact absurd (List.getLast?_eq_none_iff.mp hg) h
  | some prev => exact ⟨rfl, validate_undo_stack _⟩

lemma undo_of_nil {e : JsonEditor} (h : e.undo_stack = []) :
    undo e = (e, false) := by
  unfold undo
  rw [h]
  rfl

lemma undoTimes_exhaust :
    ∀ (n : Nat) (e : JsonEditor), e.undo_stack.length = n →
      (undoTimes (n + 1) e).2 = List.replicate n true ++ [false] := by
  intro n
  induction n with
  | zero =>
    intro e h
    have hnil : e.undo_stack = [] := List.eq_nil_of_length_eq_zero h
    simp [undoTimes, undo_of_nil hnil]
  | succ n ih =>
    intro e h
    have hne : e.undo_stack ≠ [] := by
      intro hc; rw [hc] at h; simp at h
    obtain ⟨hb, hs⟩ := undo_of_ne_nil hne
    have hlen : (undo e).1.undo_stack.length = n := by
      rw [hs, List.length_dropLast, h]
      omega
    show ((undo e).2 :: (undoTimes (n + 1) (undo e).1).2) = _
    rw [hb, ih _ hlen]
    rfl

end JsonEd

namespace JsonEd

/-- **C2** — History bound and eviction: the undo stack capacity of a
fresh editor is 100; pushing with a full stack evicts the oldest entry
(the front, opposite the pop end); after 150 consecutive mutating edits
starting from an empty history, `undo` succeeds exactly 100 times and
the 101st reports nothing to undo; and every push (any new edit) clears
the redo stack. -/
theorem claim2_history_bound :
    (∀ t, (JsonEditor.with_text t).max_history = 100) ∧
    (∀ (e : JsonEditor) (t : String), (set_text e t).redo_stack = []) ∧
    (∀ (e : JsonEditor) (t : String), e.undo_stack.length = e.max_history →
      0 < e.max_history →
      (set_text e t).undo_stack = e.undo_stack.drop 1 ++ [e.text]) ∧
    (∀ (e0 : JsonEditor) (ts : List String), e0.max_history = 100 →
      e0.undo_stack = [] → ts.length = 150 →
      (undoTimes 101 (ts.foldl set_text e0)).2 =
        List.replicate 100 true ++ [false]) := by
  refine ⟨?_, set_text_redo_stack, ?_, ?_⟩
  · intro t
    show (validate _).max_history = 100
    rw [validate_max_history]
  · intro e t hfull hpos
    rw [set_text_undo_stack, push_undo_stack_full (by omega)]
    rw [List.drop_append_of_le_length (by omega)]
  · intro e0 ts h100 hnil hlen
    have h := foldl_set_text_len ts e0 h100 (by rw [hnil]; simp)
    rw [hnil, hlen] at h
    simp only [List.length_nil, Nat.zero_add] at h
    exact undoTimes_exhaust 100 _ (by rw [h]; omega)

/-- Witness for C2: a concrete fresh editor and 150 concrete edits. -/
theorem claim2_history_bound_witness :
    (undoTimes 101 ((List.replicate 150 "1").foldl set_text
        (JsonEditor.with_text "0"))).2 =
      List.replicate 100 true ++ [false] :=
  claim2_history_bound.2.2.2 (JsonEditor.with_text "0")
    (List.replicate 150 "1") rfl rfl (by simp)

end JsonEd

namespace JsonEd

/-! ### Lemmas: `modifyAtPath` against `navigateToPath` -/

lemma modify_congr_at_target (f g : JsonValue → Option JsonValue) :
    ∀ (p : List String) (v t : JsonValue), navigateToPath v p = some t →
      f t = g t → modifyAtPath f v p = modifyAtPath g v p := by
  intro p
  induction p with
  | nil =>
    intro v t h hfg
    simp only [navigateToPath, Option.some.injEq] at h
    subst h
    simpa [modifyAtPath] using hfg
  | cons seg rest ih =>
    intro v t h hfg
    cases v with
    | obj kvs =>
      simp only [navigateToPath] at h
      cases hm : mapGet kvs seg with
      | none => simp only [hm] at h; cases h
      | some c =>
        simp only [hm] at h
        simp only [modifyAtPath, hm]
        rw [ih c t h hfg]
    | arr xs =>
      simp only [navigateToPath] at h
      cases hi : parseUsize seg with
      | none => simp only [hi] at h; cases h
      | some i =>
        simp only [hi] at h
        cases hg : xs[i]? with
        | none => simp only [hg] at h; cases h
        | some c =>
          simp only [hg] at h
          simp only [modifyAtPath, hi, hg]
          rw [ih c t h hfg]
    | null => simp [navigateToPath] at h
    | bool b => simp [navigateToPath] at h
    | num l => simp [navigateToPath] at h
    | str s => simp [navigateToPath] at h

lemma modify_none_of_navigate_none (f : JsonValue → Option JsonValue) :
    ∀ (p : List String) (v : JsonValue), navigateToPath v p = none →
      modifyAtPath f v p = none := by
  intro p
  induction p with
  | nil => intro v h; simp [navigateToPath] at h
  | cons seg rest ih =>
    intro v h
    cases v with
    | obj kvs =>
      simp only [navigateToPath] at h
      cases hm : mapGet kvs seg with
      | none => simp [modifyAtPath, hm]
      | some c =>
        simp only [hm] at h
        simp [modifyAtPath, hm, ih c h]
    | arr xs =>
      simp only [navigateToPath] at h
      cases hi : parseUsize seg with
      | none => simp [modifyAtPath, hi]
      | some i =>
        simp only [hi] at h
        cases hg : xs[i]? with
        | none => simp [modifyAtPath, hi, hg]
        | some c =>
          simp only [hg] at h
          simp [modifyAtPath, hi, hg, ih c h]
    | null => simp [modifyAtPath]
    | bool b => simp [modifyAtPath]
    | num l => simp [modifyAtPath]
    | str s => simp [modifyAtPath]

lemma modify_none_of_step_none (f : JsonValue → Option JsonValue) :
    ∀ (p : List String) (v t : JsonValue), navigateToPath v p = some t →
      f t = none → modifyAtPath f v p = none := by
  intro p
  induction p with
  | nil =>
    intro v t h hf
    simp only [navigateToPath, Option.some.injEq] at h
    subst h
    simpa [modifyAtPath] using hf
  | cons seg rest ih =>
    intro v t h hf
    cases v with
    | obj kvs =>
      simp only [navigateToPath] at h
      cases hm : mapGet kvs seg with
      | none => simp only [hm] at h; cases h
      | some c =>
        simp only [hm] at h
        simp [modifyAtPath, hm, ih c t h hf]
    | arr xs =>
      simp only [navigateToPath] at h
      cases hi : parseUsize seg with
      | none => simp only [hi] at h; cases h
      | some i =>
        simp only [hi] at h
        cases hg : xs[i]? with
        | none => simp only [hg] at h; cases h
        | some c =>
          simp only [hg] at h
          simp [modifyAtPath, hi, hg, ih c t h hf]
    | null => simp [navigateToPath] at h
    | bool b => simp [navigateToPath] at h
    | num l => simp [navigateToPath] at h
    | str s => simp [navigateToPath] at h

lemma setAtPath_isSome (nv : JsonValue) :
    ∀ (p : List String) (v t : JsonValue), navigateToPath v p = some t →
      ∃ v2, setAtPath v p nv = some v2 := by
  intro p
  induction p with
  | nil => intro v t _; exact ⟨nv, by simp [setAtPath, modifyAtPath]⟩
  | cons seg rest ih =>
    intro v t h
    cases v with
    | obj kvs =>
      simp only [navigateToPath] at h
      cases hm : mapGet kvs seg with
      | none => simp only [hm] at h; cases h
      | some c =>
        simp only [hm] at h
        obtain ⟨v2, hv2⟩ := ih c t h
        have hv2' : modifyAtPath (fun _ => some nv) c rest = some v2 := hv2
        exact ⟨.obj (mapSet kvs seg v2), by
          simp [setAtPath, modifyAtPath, hm, hv2']⟩
    | arr xs =>
      simp only [navigateToPath] at h
      cases hi : parseUsize seg with
      | none => simp only [hi] at h; cases h
      | some i =>
        simp only [hi] at h
        cases hg : xs[i]? with
        | none => simp only [hg] at h; cases h
        | some c =>
          simp only [hg] at h
          obtain ⟨v2, hv2⟩ := ih c t h
          have hv2' : modifyAtPath (fun _ => some nv) c rest = some v2 := hv2
          exact ⟨.arr (xs.set i v2), by
            simp [setAtPath, modifyAtPath, hi, hg, hv2']⟩
    | null => simp [navigateToPath] at h
    | bool b => simp [navigateToPath] at h
    | num l => simp [navigateToPath] at h
    | str s => simp [navigateToPath] at h

end JsonEd

namespace JsonEd

/-- **C5** — Delete contract: deleting the empty path fails (the root
cannot be deleted); otherwise the operation navigates to the parent of
the last segment and, if the parent is an Object, removes the key when
present, and if the parent is an Array, removes the element at the
parsed index when in bounds (shifting subsequent indices down); deleting
path `["1"]` from `[1,2,3]` succeeds and yields `[1,3]`; a missing key,
an unparsable or out-of-bounds index, a primitive parent, or a failed
parent navigation all fail. -/
theorem claim5_delete_contract :
    (∀ e : JsonEditor, delete_value_at_path e [] = (e, false)) ∧
    (∀ (e : JsonEditor) (v : JsonValue) (pp : List String) (k : String) kvs,
      e.parsed_value = some v →
      navigateToPath v pp = some (.obj kvs) → (mapGet kvs k).isSome = true →
      ∃ v2, setAtPath v pp (.obj (mapRemove kvs k)) = some v2 ∧
        delete_value_at_path e (pp ++ [k]) = (commitValue e v2, true)) ∧
    (∀ (e : JsonEditor) (v : JsonValue) (pp : List String) (k : String) xs i,
      e.parsed_value = some v →
      navigateToPath v pp = some (.arr xs) → parseUsize k = some i →
      i < xs.length →
      ∃ v2, setAtPath v pp (.arr (xs.eraseIdx i)) = some v2 ∧
        delete_value_at_path e (pp ++ [k]) = (commitValue e v2, true)) ∧
    (∀ (e : JsonEditor) (v : JsonValue) (pp : List String) (k : String) kvs,
      e.parsed_value = some v →
      navigateToPath v pp = some (.obj kvs) → mapGet kvs k = none →
      delete_value_at_path e (pp ++ [k]) = (e, false)) ∧
    (∀ (e : JsonEditor) (v : JsonValue) (pp : List String) (k : String) xs,
      e.parsed_value = some v →
      navigateToPath v pp = some (.arr xs) →
      (parseUsize k = none ∨ ∃ i, parseUsize k = some i ∧ xs.length ≤ i) →
      delete_value_at_path e (pp ++ [k]) = (e, false)) ∧
    (∀ (e : JsonEditor) (v : JsonValue) (pp : List String) (k : String)
      (t : JsonValue),
      e.parsed_value = some v →
      navigateToPath v pp = some t → isContainer t = false →
      delete_value_at_path e (pp ++ [k]) = (e, false)) ∧
    (∀ (e : JsonEditor) (v : JsonValue) (pp : List String) (k : String),
      e.parsed_value = some v → navigateToPath v pp = none →
      delete_value_at_path e (pp ++ [k]) = (e, false)) ∧
    ((delete_value_at_path (JsonEditor.with_text "[1,2,3]") ["1"]).2 = true ∧
      (delete_value_at_path (JsonEditor.with_text "[1,2,3]") ["1"]).1.parsed_value =
        some (.arr [.num "1", .num "3"])) := by
  refine ⟨fun e => rfl, ?_, ?_, ?_, ?_, ?_, ?_, rfl, rfl⟩
  · intro e v pp k kvs hp hnav hget
    obtain ⟨v2, hv2⟩ := setAtPath_isSome (.obj (mapRemove kvs k)) pp v _ hnav
    refine ⟨v2, hv2, ?_⟩
    have hcongr := modify_congr_at_target (deleteStep k)
      (fun _ => some (.obj (mapRemove kvs k))) pp v _ hnav
      (by simp [deleteStep, hget])
    have hv2' : modifyAtPath (fun _ => some (JsonValue.obj (mapRemove kvs k))) v pp
        = some v2 := hv2
    simp only [delete_value_at_path, List.getLast?_concat, List.dropLast_concat,
      hp, hcongr, hv2']
  · intro e v pp k xs i hp hnav hi hlt
    obtain ⟨v2, hv2⟩ := setAtPath_isSome (.arr (xs.eraseIdx i)) pp v _ hnav
    refine ⟨v2, hv2, ?_⟩
    have hcongr := modify_congr_at_target (deleteStep k)
      (fun _ => some (.arr (xs.eraseIdx i))) pp v _ hnav
      (by simp [deleteStep, hi, hlt])
    have hv2' : modifyAtPath (fun _ => some (JsonValue.arr (xs.eraseIdx i))) v pp
        = some v2 := hv2
    simp only [delete_value_at_path, List.getLast?_concat, List.dropLast_concat,
      hp, hcongr, hv2']
  · intro e v pp k kvs hp hnav hget
    have hnone := modify_none_of_step_none (deleteStep k) pp v _ hnav
      (by simp [deleteStep, hget])
    simp only [delete_value_at_path, List.getLast?_concat, List.dropLast_concat,
      hp, hnone]
  · intro e v pp k xs hp hnav hcase
    have hstep : deleteStep k (.arr xs) = none := by
      rcases hcase with hn | ⟨i, hi, hge⟩
      · simp [deleteStep, hn]
      · simp [deleteStep, hi]
        omega
    have hnone := modify_none_of_step_none (deleteStep k) pp v _ hnav hstep
    simp only [delete_value_at_path, List.getLast?_concat, List.dropLast_concat,
      hp, hnone]
  · intro e v pp k t hp hnav hprim
    have hstep : deleteStep k t = none := by
      cases t <;> simp_all [deleteStep, isContainer]
    have hnone := modify_none_of_step_none (deleteStep k) pp v _ hnav hstep
    simp only [delete_value_at_path, List.getLast?_concat, List.dropLast_concat,
      hp, hnone]
  · intro e v pp k hp hnav
    have hnone := modify_none_of_navigate_none (deleteStep k) pp v hnav
    simp only [delete_value_at_path, List.getLast?_concat, List.dropLast_concat,
      hp, hnone]

/-- Witness for C5 at the spec's concrete scenario 2: deleting `["k"]`
from `{"k":"v"}` succeeds and leaves the empty object. -/
theorem claim5_delete_contract_witness :
    delete_value_at_path (JsonEditor.with_text "\x7b\"k\":\"v\"\x7d") ["k"] =
      (commitValue (JsonEditor.with_text "\x7b\"k\":\"v\"\x7d") (.obj []), true) := by
  obtain ⟨v2, hv2, hd⟩ := claim5_delete_contract.2.1
    (JsonEditor.with_text "\x7b\"k\":\"v\"\x7d") (.obj [("k", .str "v")]) [] "k"
    [("k", .str "v")] rfl rfl rfl
  have h2 : some (JsonValue.obj []) = some v2 := hv2
  cases h2
  exact hd

end JsonEd

namespace JsonEd

/-! ### Lemmas: totality of the coercion away from the panicking input -/

lemma parseEditedText_total {s : String} (h : s ≠ "\"") :
    ∃ nv, parseEditedText s = some nv := by
  unfold parseEditedText
  split
  · next hcond =>
    split
    · next hlen =>
      exfalso
      apply h
      simp only [Bool.and_eq_true, beq_iff_eq] at hcond hlen
      obtain ⟨h1, _⟩ := hcond
      obtain ⟨sd⟩ := s
      cases sd with
      | nil => simp at hlen
      | cons c cs =>
        cases cs with
        | nil =>
          simp only [List.head?_cons, Option.some.injEq] at h1
          subst h1
          rfl
        | cons d ds => simp at hlen
    · exact ⟨_, rfl⟩
  · split
    · split
      · exact ⟨_, rfl⟩
      · exact ⟨_, rfl⟩
    · split
      · exact ⟨_, rfl⟩
      · split
        · exact ⟨_, rfl⟩
        · split
          · exact ⟨_, rfl⟩
          · exact ⟨_, rfl⟩

/-- **C9 (amended)** — Root replacement via update: for every editor
whose document is valid and every value string other than the lone
double-quote character (on which the coercion's slice panics), calling
`update_value_at_path` with the empty path succeeds and replaces the
entire document with the coerced value (navigation of the empty path
yields the root itself), while `delete_value_at_path` with the empty
path always fails. -/
theorem claim9_root_update :
    (∀ (e : JsonEditor) (v : JsonValue) (s : String),
      e.parsed_value = some v → s ≠ "\"" →
      ∃ nv, parseEditedText s = some nv ∧
        update_value_at_path e [] s = some (commitValue e nv, true)) ∧
    (∀ e : JsonEditor, delete_value_at_path e [] = (e, false)) := by
  refine ⟨?_, fun e => rfl⟩
  intro e v s hp hs
  obtain ⟨nv, hnv⟩ := parseEditedText_total hs
  refine ⟨nv, hnv, ?_⟩
  have hset : setAtPath v [] nv = some nv := by simp [setAtPath, modifyAtPath]
  simp only [update_value_at_path, hp, navigateToPath, Option.isSome_some,
    if_pos, hnv, hset]

/-- Counterexample for C9 as stated: with the valid document `0`, the
root update with the value string consisting of one double quote does
not succeed — the coercion's slice `&s[1..0]` panics (modelled `none`),
so no `true` is returned and nothing is replaced. -/
theorem claim9_root_update_counterexample :
    update_value_at_path (JsonEditor.with_text "0") [] "\"" = none := rfl

/-- Witness for C9 at a concrete input: root update of document `0` with
`true` succeeds and installs the Boolean. -/
theorem claim9_root_update_witness :
    update_value_at_path (JsonEditor.with_text "0") [] "true" =
      some (commitValue (JsonEditor.with_text "0") (.bool true), true) := by
  obtain ⟨nv, hnv, hu⟩ := claim9_root_update.1 (JsonEditor.with_text "0")
    (.num "0") "true" rfl (by decide)
  have h2 : some (JsonValue.bool true) = some nv := hnv
  cases h2
  exact hu

end JsonEd

namespace JsonEd

/-- ASCII lowercase of a string (formalizing the claim's
"case-insensitively equals"). -/
def strToLower (s : String) : String := ⟨s.data.map asciiLower⟩

/-- The coercion rule as the claim words it (quote rule total, rule 2
always a Number, rules 3 and 4 case-insensitive), for comparison with
the source's `parseEditedText`. -/
def parseEditedTextClaim (raw : String) : JsonValue :=
  if raw.data.head? == some '"' && raw.data.getLast? == some '"' then
    .str ⟨(raw.data.drop 1).dropLast⟩
  else if parsesAsF64 raw then .num raw
  else if strToLower raw == "true" then .bool true
  else if strToLower raw == "false" then .bool false
  else if strToLower raw == "null" then .null
  else .str raw

/-- Counterexample for C4 as stated: the code's comparisons with
`true`/`false`/`null` are exact, not case-insensitive (`"TRUE"` becomes
the String `"TRUE"` where the claim's rule 3 demands the Boolean
`true`); a raw accepted by the `f64` parser but non-finite becomes Null,
not a Number; and the one-character raw `"` panics instead of becoming a
String. -/
theorem claim4_coercion_counterexample :
    parseEditedText "TRUE" = some (.str "TRUE") ∧
    parseEditedTextClaim "TRUE" = .bool true ∧
    parseEditedText "nan" = some .null ∧
    parseEditedTextClaim "nan" = .num "nan" ∧
    parseEditedText "\"" = none ∧
    parseEditedTextClaim "\"" = .str "" :=
  ⟨rfl, rfl, rfl, rfl, rfl, rfl⟩

/-- **C4 (amended)** — Value coercion precedence: the coerced value is
determined in this fixed order — (1) a raw of length at least 2 that
starts and ends with a double quote becomes a String of the inner text
verbatim (no escape processing), while on the one-character raw `"` the
coercion panics; (2) else a raw that parses fully as a 64-bit float
becomes a Number when the parsed value is finite and Null when it is
not (a NaN/infinity word or decimal overflow); (3) else a raw exactly
equal to `true` or `false` (case-sensitive) becomes that Boolean;
(4) else a raw exactly equal to `null` becomes Null; (5) otherwise the
raw becomes a String of itself verbatim. -/
theorem claim4_coercion_precedence (raw : String) :
    (raw.data.head? = some '"' → raw.data.getLast? = some '"' →
      (2 ≤ raw.data.length →
        parseEditedText raw = some (.str ⟨(raw.data.drop 1).dropLast⟩)) ∧
      (raw.data.length = 1 → parseEditedText raw = none)) ∧
    (¬(raw.data.head? = some '"' ∧ raw.data.getLast? = some '"') →
      parsesAsF64 raw = true →
      (f64LexemeFinite raw = true → parseEditedText raw = some (.num raw)) ∧
      (f64LexemeFinite raw = false → parseEditedText raw = some .null)) ∧
    (¬(raw.data.head? = some '"' ∧ raw.data.getLast? = some '"') →
      parsesAsF64 raw = false →
      (raw = "true" → parseEditedText raw = some (.bool true)) ∧
      (raw = "false" → parseEditedText raw = some (.bool false)) ∧
      (raw = "null" → parseEditedText raw = some .null) ∧
      (raw ≠ "true" → raw ≠ "false" → raw ≠ "null" →
        parseEditedText raw = some (.str raw))) := by
  refine ⟨?_, ?_, ?_⟩
  · intro h1 h2
    constructor
    · intro hlen
      unfold parseEditedText
      rw [if_pos (by simp [h1, h2])]
      rw [if_neg (by simp only [beq_iff_eq]; omega)]
    · intro hlen
      unfold parseEditedText
      rw [if_pos (by simp [h1, h2])]
      rw [if_pos (by simp [hlen])]
  · intro hnq hf
    have hcond : (raw.data.head? == some '"' && raw.data.getLast? == some '"') = false := by
      cases hb : (raw.data.head? == some '"' && raw.data.getLast? == some '"') with
      | false => rfl
      | true =>
        exfalso
        apply hnq
        simp only [Bool.and_eq_true, beq_iff_eq] at hb
        exact hb
    constructor
    · intro hfin
      unfold parseEditedText
      simp [hcond, hf, hfin]
    · intro hfin
      unfold parseEditedText
      simp [hcond, hf, hfin]
  · intro hnq hf
    have hcond : (raw.data.head? == some '"' && raw.data.getLast? == some '"') = false := by
      cases hb : (raw.data.head? == some '"' && raw.data.getLast? == some '"') with
      | false => rfl
      | true =>
        exfalso
        apply hnq
        simp only [Bool.and_eq_true, beq_iff_eq] at hb
        exact hb
    refine ⟨?_, ?_, ?_, ?_⟩
    · intro ht; subst ht
      unfold parseEditedText
      simp [hcond, hf]
    · intro ht; subst ht
      unfold parseEditedText
      simp [hcond, hf]
    · intro ht; subst ht
      unfold parseEditedText
      simp [hcond, hf]
    · intro h1 h2 h3
      unfold parseEditedText
      simp [hcond, hf, h1, h2, h3]

set_option maxRecDepth 8000 in
/-- Witness for C4 at concrete inputs, one per rule: `"hi"` (rule 1),
`1.5` (rule 2), `true` (rule 3), `null` (rule 4), `hello` (rule 5). -/
theorem claim4_coercion_precedence_witness :
    parseEditedText "\"hi\"" = some (.str "hi") ∧
    parseEditedText "1.5" = some (.num "1.5") ∧
    parseEditedText "true" = some (.bool true) ∧
    parseEditedText "null" = some .null ∧
    parseEditedText "hello" = some (.str "hello") := by
  refine ⟨?_, ?_, ?_, ?_, ?_⟩
  · exact ((claim4_coercion_precedence "\"hi\"").1
      (by decide) (by decide)).1 (by decide)
  · exact ((claim4_coercion_precedence "1.5").2.1
      (by decide) (by decide)).1 (by decide)
  · exact ((claim4_coercion_precedence "true").2.2
      (by decide) (by decide)).1 rfl
  · exact ((claim4_coercion_precedence "null").2.2
      (by decide) (by decide)).2.2.1 rfl
  · exact ((claim4_coercion_precedence "hello").2.2
      (by decide) (by decide)).2.2.2 (by decide) (by decide) (by decide)

end JsonEd

namespace JsonEd

/-! ### Lemmas: best-prefix selection -/

/-- The largest common-prefix length over a node list. -/
def maxCpl (path : List String) : List GraphNode → Nat
  | [] => 0
  | n :: t => max (commonPrefixLen n.json_path path) (maxCpl path t)

lemma bestLoop_spec (path : List String) :
    ∀ (ns : List GraphNode) (bm : Option GraphNode) (bl : Nat),
      (maxCpl path ns ≤ bl → bestLoop path ns (bm, bl) = (bm, bl)) ∧
      (bl < maxCpl path ns →
        ∃ nf, ns.find?
            (fun n => commonPrefixLen n.json_path path == maxCpl path ns) = some nf ∧
          bestLoop path ns (bm, bl) = (some nf, maxCpl path ns)) := by
  intro ns
  induction ns with
  | nil =>
    intro bm bl
    refine ⟨fun _ => rfl, fun h => absurd h (by simp [maxCpl])⟩
  | cons n t ih =>
    intro bm bl
    constructor
    · intro hle
      have h1 : commonPrefixLen n.json_path path ≤ bl := by
        simp only [maxCpl] at hle; omega
      have h2 : maxCpl path t ≤ bl := by
        simp only [maxCpl] at hle; omega
      simp only [bestLoop]
      rw [if_neg (by
        simp only [Bool.and_eq_true, decide_eq_true_eq, not_and]
        omega)]
      exact (ih bm bl).1 h2
    · intro hlt
      by_cases hm : bl < commonPrefixLen n.json_path path
      · -- the head strictly improves: the loop takes it
        have hcond : (decide (commonPrefixLen n.json_path path > 0) &&
            decide (commonPrefixLen n.json_path path > bl)) = true := by
          simp only [Bool.and_eq_true, decide_eq_true_eq]
          omega
        by_cases hMt : maxCpl path t ≤ commonPrefixLen n.json_path path
        · -- the head attains the overall max
          have hM : maxCpl path (n :: t) = commonPrefixLen n.json_path path := by
            simp only [maxCpl]; omega
          refine ⟨n, ?_, ?_⟩
          · rw [List.find?_cons_of_pos _ (by simp [hM])]
          · simp only [bestLoop, hcond, if_true]
            rw [hM]
            exact (ih (some n) (commonPrefixLen n.json_path path)).1 hMt
        · -- the max is attained strictly later
          have hM : maxCpl path (n :: t) = maxCpl path t := by
            simp only [maxCpl]; omega
          obtain ⟨nf, hfind, hloop⟩ :=
            (ih (some n) (commonPrefixLen n.json_path path)).2 (by omega)
          refine ⟨nf, ?_, ?_⟩
          · rw [List.find?_cons_of_neg _ (by simp [hM]; omega)]
            rw [hM]
            exact hfind
          · simp only [bestLoop, hcond, if_true]
            rw [hM]
            exact hloop
      · -- the head does not improve
        have hM : maxCpl path (n :: t) = maxCpl path t := by
          simp only [maxCpl] at hlt ⊢; omega
        obtain ⟨nf, hfind, hloop⟩ := (ih bm bl).2 (by omega)
        refine ⟨nf, ?_, ?_⟩
        · rw [List.find?_cons_of_neg _ (by simp [hM]; omega)]
          rw [hM]
          exact hfind
        · simp only [bestLoop]
          rw [if_neg (by
            simp only [Bool.and_eq_true, decide_eq_true_eq, not_and]
            omega)]
          rw [hM]
          exact hloop

end JsonEd

namespace JsonEd

lemma maxCpl_eq_zero (path : List String) :
    ∀ ns : List GraphNode, (∀ n ∈ ns, commonPrefixLen n.json_path path = 0) →
      maxCpl path ns = 0 := by
  intro ns
  induction ns with
  | nil => intro _; rfl
  | cons n t ih =>
    intro hall
    simp only [maxCpl]
    rw [hall n (by simp), ih (fun m hm => hall m (by simp [hm]))]
    omega

/-- A plain node for concrete selection scenarios. -/
def exNode (i : Nat) (p : List String) : GraphNode :=
  { id := i, node_type := .object, json_path := p }

/-- **C7** — Best-prefix selection: `select_by_path` selects the (first)
node whose path equals the target exactly if one exists; otherwise it
selects the first node in list order attaining the strictly longest
common path prefix greater than zero (stopping at the first divergent
segment), and returns `false` — leaving the selection untouched — only
when no node shares any prefix; with node paths `["a"]`, `["a","b"]`,
`["a","b","c"]` and target `["a","b","x"]` the node for `["a","b"]` is
selected. -/
theorem claim7_best_prefix_selection :
    (∀ (g : JsonGraph) (path : List String) (n : GraphNode),
      g.nodes.find? (fun n => n.json_path == path) = some n →
      select_by_path g path = ({ g with selected_node := some n.id }, true)) ∧
    (∀ (g : JsonGraph) (path : List String),
      g.nodes.find? (fun n => n.json_path == path) = none →
      0 < maxCpl path g.nodes →
      ∃ nf, g.nodes.find?
          (fun n => commonPrefixLen n.json_path path == maxCpl path g.nodes) =
            some nf ∧
        select_by_path g path = ({ g with selected_node := some nf.id }, true)) ∧
    (∀ (g : JsonGraph) (path : List String),
      g.nodes.find? (fun n => n.json_path == path) = none →
      (∀ n ∈ g.nodes, commonPrefixLen n.json_path path = 0) →
      select_by_path g path = (g, false)) ∧
    (∀ g : JsonGraph,
      g.nodes = [exNode 0 ["a"], exNode 1 ["a", "b"], exNode 2 ["a", "b", "c"]] →
      select_by_path g ["a", "b", "x"] =
        ({ g with selected_node := some 1 }, true)) := by
  refine ⟨?_, ?_, ?_, ?_⟩
  · intro g path n h
    unfold select_by_path
    rw [h]
  · intro g path hnone hpos
    obtain ⟨nf, hfind, hloop⟩ := (bestLoop_spec path g.nodes none 0).2 hpos
    refine ⟨nf, hfind, ?_⟩
    unfold select_by_path
    rw [hnone, hloop]
  · intro g path hnone hall
    have hz : maxCpl path g.nodes = 0 := maxCpl_eq_zero path g.nodes hall
    unfold select_by_path
    rw [hnone, (bestLoop_spec path g.nodes none 0).1 (by omega)]
  · intro g h
    unfold select_by_path
    rw [h]
    rfl

/-- Witness for C7 at the claim's concrete node set. -/
theorem claim7_best_prefix_selection_witness :
    select_by_path
        { nodes := [exNode 0 ["a"], exNode 1 ["a", "b"], exNode 2 ["a", "b", "c"]]
          edges := []
          next_id := 3
          selected_node := none
          editing_cell := none
          adding_state := none
          renaming_key := none
          context_menu := none
          pending_edit := none }
        ["a", "b", "x"] =
      ({ nodes := [exNode 0 ["a"], exNode 1 ["a", "b"], exNode 2 ["a", "b", "c"]]
         edges := []
         next_id := 3
         selected_node := some 1
         editing_cell := none
         adding_state := none
         renaming_key := none
         context_menu := none
         pending_edit := none }, true) :=
  claim7_best_prefix_selection.2.2.2 _ rfl

end JsonEd

namespace JsonEd

/-! ### Lemmas: the layout builder's state discipline -/

/-- The interaction-state part of a `JsonGraph`. -/
def uiState (g : JsonGraph) :
    Option Nat × Option EditingCell × Option AddingState × Option RenamingKey ×
      Option ContextMenuState × Option EditResult :=
  (g.selected_node, g.editing_cell, g.adding_state, g.renaming_key,
   g.context_menu, g.pending_edit)

mutual

theorem buildNode_uiState (v : JsonValue) (pid : Option Nat) (lbl : Option String)
    (path : List String) (st : JsonGraph) :
    uiState (buildNode v pid lbl path st) = uiState st := by
  unfold buildNode
  cases v <;> cases pid <;>
    simp only [] <;>
    first
      | rfl
      | (rw [buildObjChildren_uiState]; rfl)
      | (rw [buildArrChildren_uiState]; rfl)

theorem buildObjChildren_uiState (kvs : List (String × JsonValue)) (pid : Nat)
    (path : List String) (st : JsonGraph) :
    uiState (buildObjChildren kvs pid path st) = uiState st := by
  match kvs with
  | [] => rw [buildObjChildren]
  | (k, c) :: rest =>
    rw [buildObjChildren]
    rw [buildObjChildren_uiState rest]
    by_cases hc : isContainer c
    · rw [if_pos hc, buildNode_uiState]
    · rw [if_neg hc]

theorem buildArrChildren_uiState (xs : List JsonValue) (idx pid : Nat)
    (path : List String) (st : JsonGraph) :
    uiState (buildArrChildren xs idx pid path st) = uiState st := by
  match xs with
  | [] => rw [buildArrChildren]
  | c :: rest =>
    rw [buildArrChildren]
    rw [buildArrChildren_uiState rest]
    by_cases hc : isContainer c
    · rw [if_pos hc, buildNode_uiState]
    · rw [if_neg hc]

end

end JsonEd

namespace JsonEd


/-- The node/edge/id bookkeeping `build_node` performs before recursing
into children (proof scaffolding, equal to the front half of
`buildNode` by `buildNode_unfold`). -/
def stepState (v : JsonValue) (pid : Option Nat) (lbl : Option String)
    (path : List String) (st : JsonGraph) : JsonGraph :=
  let node : GraphNode := { id := st.next_id, node_type := kindOf v, json_path := path }
  let st1 := { st with nodes := st.nodes ++ [node], next_id := st.next_id + 1 }
  match pid with
  | some p =>
    { st1 with edges := st1.edges ++ [{ fromId := p, toId := st.next_id, label := lbl }] }
  | none => st1

lemma buildNode_unfold (v : JsonValue) (pid : Option Nat) (lbl : Option String)
    (path : List String) (st : JsonGraph) :
    buildNode v pid lbl path st =
      match v with
      | .obj kvs => buildObjChildren kvs st.next_id path (stepState v pid lbl path st)
      | .arr xs => buildArrChildren xs 0 st.next_id path (stepState v pid lbl path st)
      | _ => stepState v pid lbl path st := by
  unfold buildNode stepState
  cases v <;> cases pid <;> rfl

lemma stepState_nodes (v : JsonValue) (pid : Option Nat) (lbl : Option String)
    (path : List String) (st : JsonGraph) :
    (stepState v pid lbl path st).nodes =
      st.nodes ++ [{ id := st.next_id, node_type := kindOf v, json_path := path }] := by
  unfold stepState
  cases pid <;> rfl

lemma stepState_next_id (v : JsonValue) (pid : Option Nat) (lbl : Option String)
    (path : List String) (st : JsonGraph) :
    (stepState v pid lbl path st).next_id = st.next_id + 1 := by
  unfold stepState
  cases pid <;> rfl

mutual

theorem buildNode_ids (v : JsonValue) (pid : Option Nat) (lbl : Option String)
    (path : List String) (st : JsonGraph)
    (h : st.nodes.map (fun n => n.id) = List.range st.next_id) :
    (buildNode v pid lbl path st).nodes.map (fun n => n.id) =
      List.range (buildNode v pid lbl path st).next_id := by
  rw [buildNode_unfold]
  have h1 : (stepState v pid lbl path st).nodes.map (fun n => n.id) =
      List.range (stepState v pid lbl path st).next_id := by
    rw [stepState_nodes, stepState_next_id]
    simp [h, List.range_succ]
  cases v with
  | obj kvs => exact buildObjChildren_ids kvs st.next_id path _ h1
  | arr xs => exact buildArrChildren_ids xs 0 st.next_id path _ h1
  | null => exact h1
  | bool b => exact h1
  | num l => exact h1
  | str s => exact h1

theorem buildObjChildren_ids (kvs : List (String × JsonValue)) (pid : Nat)
    (path : List String) (st : JsonGraph)
    (h : st.nodes.map (fun n => n.id) = List.range st.next_id) :
    (buildObjChildren kvs pid path st).nodes.map (fun n => n.id) =
      List.range (buildObjChildren kvs pid path st).next_id := by
  match kvs with
  | [] => rw [buildObjChildren]; exact h
  | (k, c) :: rest =>
    rw [buildObjChildren]
    apply buildObjChildren_ids rest
    by_cases hc : isContainer c
    · rw [if_pos hc]
      exact buildNode_ids c (some pid) (some k) (path ++ [k]) st h
    · rw [if_neg hc]
      exact h

theorem buildArrChildren_ids (xs : List JsonValue) (idx pid : Nat)
    (path : List String) (st : JsonGraph)
    (h : st.nodes.map (fun n => n.id) = List.range st.next_id) :
    (buildArrChildren xs idx pid path st).nodes.map (fun n => n.id) =
      List.range (buildArrChildren xs idx pid path st).next_id := by
  match xs with
  | [] => rw [buildArrChildren]; exact h
  | c :: rest =>
    rw [buildArrChildren]
    apply buildArrChildren_ids rest
    by_cases hc : isContainer c
    · rw [if_pos hc]
      exact buildNode_ids c (some pid) (some ("[" ++ natToString idx ++ "]"))
        (path ++ [natToString idx]) st h
    · rw [if_neg hc]
      exact h

end

/-- **C10** — Rebuild resets interaction state: after `build_from_json`,
the graph has no selected node, no in-progress cell edit, no in-progress
add dialog, no in-progress rename dialog, no open context menu and no
pending edit result, and node ids are reassigned starting from 0 in
list order (`[0, 1, ..., n-1]`). -/
theorem claim10_rebuild_resets (g : JsonGraph) (v : JsonValue) :
    (build_from_json g v).selected_node = none ∧
    (build_from_json g v).editing_cell = none ∧
    (build_from_json g v).adding_state = none ∧
    (build_from_json g v).renaming_key = none ∧
    (build_from_json g v).context_menu = none ∧
    (build_from_json g v).pending_edit = none ∧
    (build_from_json g v).nodes.map (fun n => n.id) =
      List.range (build_from_json g v).nodes.length := by
  have hui : uiState (build_from_json g v) =
      (none, none, none, none, none, none) := by
    unfold build_from_json
    cases v <;> first | rfl | (rw [buildNode_uiState]; rfl)
  have hids : (build_from_json g v).nodes.map (fun n => n.id) =
      List.range (build_from_json g v).next_id := by
    unfold build_from_json
    cases v <;>
      first
        | rfl
        | exact buildNode_ids _ none none [] _ (by rfl)
  have hlen : (build_from_json g v).nodes.length =
      (build_from_json g v).next_id := by
    have h2 := congrArg List.length hids
    simpa using h2
  simp only [uiState, Prod.mk.injEq] at hui
  exact ⟨hui.1, hui.2.1, hui.2.2.1, hui.2.2.2.1, hui.2.2.2.2.1, hui.2.2.2.2.2,
    by rw [hids, hlen]⟩

end JsonEd

namespace JsonEd

/-! ### Lemmas: decimal index round-trip -/

lemma digitVal_digitChar {d : Nat} (hd : d < 10) :
    digitVal (digitChar d) = some d := by
  interval_cases d <;> decide

lemma natDigits_cons : ∀ n : Nat, ∃ c cs, natDigits n = c :: cs ∧ isDigit c = true := by
  intro n
  induction n using Nat.strong_induction_on with
  | _ n ih =>
    by_cases h : n < 10
    · refine ⟨digitChar n, [], ?_, ?_⟩
      · unfold natDigits
        rw [if_pos h]
      · interval_cases n <;> decide
    · obtain ⟨c, cs, hcons, hdig⟩ := ih (n / 10) (Nat.div_lt_self (by omega) (by omega))
      refine ⟨c, cs ++ [digitChar (n % 10)], ?_, hdig⟩
      unfold natDigits
      rw [if_neg h, hcons]
      rfl

lemma decDigitsVal_snoc (c : Char) :
    ∀ (ds : List Char) (acc : Nat),
      decDigitsVal (ds ++ [c]) acc =
        (decDigitsVal ds acc).bind
          (fun a => (digitVal c).map (fun d => a * 10 + d)) := by
  intro ds
  induction ds with
  | nil =>
    intro acc
    simp only [List.nil_append, decDigitsVal]
    cases digitVal c <;> rfl
  | cons d ds ih =>
    intro acc
    simp only [List.cons_append, decDigitsVal]
    cases digitVal d with
    | none => rfl
    | some x => exact ih (acc * 10 + x)

lemma decDigitsVal_natDigits :
    ∀ (n acc : Nat),
      decDigitsVal (natDigits n) acc =
        some (acc * 10 ^ (natDigits n).length + n) := by
  intro n
  induction n using Nat.strong_induction_on with
  | _ n ih =>
    intro acc
    by_cases h : n < 10
    · unfold natDigits
      rw [if_pos h]
      simp only [decDigitsVal, digitVal_digitChar h, List.length_cons,
        List.length_nil, pow_one]
      rfl
    · unfold natDigits
      rw [if_neg h]
      rw [decDigitsVal_snoc, ih (n / 10) (Nat.div_lt_self (by omega) (by omega)) acc]
      simp only [digitVal_digitChar (Nat.mod_lt n (by omega)), Option.some_bind,
        Option.map_some, Option.map_some', Option.some.injEq, List.length_append,
        List.length_cons, List.length_nil, Nat.zero_add]
      rw [pow_succ]
      generalize (10 : Nat) ^ (natDigits (n / 10)).length = B
      have hdm : 10 * (n / 10) + n % 10 = n := Nat.div_add_mod n 10
      have hab : (acc * B + n / 10) * 10 + n % 10 = acc * B * 10 + n := by omega
      calc (acc * B + n / 10) * 10 + n % 10 = acc * B * 10 + n := hab
        _ = acc * (B * 10) + n := by ring

lemma parseUsize_natToString (n : Nat) : parseUsize (natToString n) = some n := by
  obtain ⟨c, cs, hcons, hdig⟩ := natDigits_cons n
  have hne : c ≠ '+' := by
    intro hc
    rw [hc] at hdig
    exact absurd hdig (by decide)
  have hdata : (natToString n).data = natDigits n := rfl
  unfold parseUsize
  rw [hdata, hcons]
  have hmatch : (match c :: cs with
      | '+' :: rest => rest
      | rest => rest) = c :: cs := by
    split
    · rename_i rest heq
      injection heq with h1 h2
      exact absurd h1 hne
    · rfl
  rw [hmatch]
  rw [if_neg (by simp)]
  have := decDigitsVal_natDigits n 0
  rw [hcons] at this
  rw [this]
  simp

end JsonEd

namespace JsonEd

/-! ### Lemmas: navigation extension and well-formedness -/

lemma navigate_append :
    ∀ (p q : List String) (v : JsonValue),
      navigateToPath v (p ++ q) =
        (navigateToPath v p).bind (fun w => navigateToPath w q) := by
  intro p
  induction p with
  | nil => intro q v; cases v <;> rfl
  | cons seg rest ih =>
    intro q v
    cases v with
    | obj kvs =>
      cases hm : mapGet kvs seg with
      | none => simp [navigateToPath, hm]
      | some c =>
        simp only [List.cons_append, navigateToPath, hm]
        exact ih q c
    | arr xs =>
      cases hi : parseUsize seg with
      | none => simp [navigateToPath, hi]
      | some i =>
        cases hg : xs[i]? with
        | none => simp [navigateToPath, hi, hg]
        | some c =>
          simp only [List.cons_append, navigateToPath, hi, hg]
          exact ih q c
    | null => rfl
    | bool b => rfl
    | num l => rfl
    | str s => rfl

lemma navigate_snoc_obj {root : JsonValue} {path : List String}
    {kvs : List (String × JsonValue)} {k : String} {c : JsonValue}
    (h : navigateToPath root path = some (.obj kvs))
    (hget : mapGet kvs k = some c) :
    navigateToPath root (path ++ [k]) = some c := by
  rw [navigate_append, h]
  simp [navigateToPath, hget]

lemma navigate_snoc_arr {root : JsonValue} {path : List String}
    {xs : List JsonValue} {i : Nat} {c : JsonValue}
    (h : navigateToPath root path = some (.arr xs))
    (hget : xs[i]? = some c) :
    navigateToPath root (path ++ [natToString i]) = some c := by
  rw [navigate_append, h]
  simp [navigateToPath, parseUsize_natToString, hget]

lemma mapGet_of_mem_nodup :
    ∀ {kvs : List (String × JsonValue)} {k : String} {c : JsonValue},
      nodupKeys kvs = true → (k, c) ∈ kvs → mapGet kvs k = some c := by
  intro kvs
  induction kvs with
  | nil => intro k c _ hm; simp at hm
  | cons p rest ih =>
    intro k c hnd hm
    obtain ⟨k0, c0⟩ := p
    simp only [nodupKeys, Bool.and_eq_true, Bool.not_eq_true'] at hnd
    rcases List.mem_cons.mp hm with h | h
    · injection h with h1 h2
      subst h1
      subst h2
      simp [mapGet]
    · have hk0 : k0 ≠ k := by
        intro hc
        subst hc
        have : rest.any (fun p => p.1 = k0) = true := by
          apply List.any_eq_true.mpr
          exact ⟨(k0, c), h, by simp⟩
        rw [this] at hnd
        exact absurd hnd.1 (by decide)
      simp only [mapGet, if_neg hk0]
      exact ih hnd.2 h

lemma wf_obj : ∀ {kvs : List (String × JsonValue)}, wf (.obj kvs) = true →
    nodupKeys kvs = true ∧ ∀ p ∈ kvs, wf p.2 = true := by
  intro kvs hwf
  rw [wf] at hwf
  obtain ⟨hnd, hp⟩ := Bool.and_eq_true_iff.mp hwf
  refine ⟨hnd, ?_⟩
  clear hwf hnd
  induction kvs with
  | nil => intro p hm; simp at hm
  | cons q rest ih =>
    intro p hm
    obtain ⟨k0, c0⟩ := q
    rw [wfPairs] at hp
    obtain ⟨h1, h2⟩ := Bool.and_eq_true_iff.mp hp
    rcases List.mem_cons.mp hm with h | h
    · subst h; exact h1
    · exact ih h2 p h

lemma wf_arr : ∀ {xs : List JsonValue}, wf (.arr xs) = true →
    ∀ c ∈ xs, wf c = true := by
  intro xs hwf
  rw [wf] at hwf
  induction xs with
  | nil => intro c hm; simp at hm
  | cons x rest ih =>
    intro c hm
    rw [wfList] at hwf
    obtain ⟨h1, h2⟩ := Bool.and_eq_true_iff.mp hwf
    rcases List.mem_cons.mp hm with h | h
    · subst h; exact h1
    · exact ih h2 c h

end JsonEd

namespace JsonEd

/-- A node addresses a live location of the root value of matching kind. -/
def nodeOk (root : JsonValue) (n : GraphNode) : Prop :=
  ∃ w, navigateToPath root n.json_path = some w ∧ kindOf w = n.node_type

mutual

theorem buildNode_nodesOk (root : JsonValue) (v : JsonValue) (pid : Option Nat)
    (lbl : Option String) (path : List String) (st : JsonGraph)
    (hroot : navigateToPath root path = some v) (hwf : wf v = true)
    (hst : ∀ n ∈ st.nodes, nodeOk root n) :
    ∀ n ∈ (buildNode v pid lbl path st).nodes, nodeOk root n := by
  rw [buildNode_unfold]
  have hstep : ∀ n ∈ (stepState v pid lbl path st).nodes, nodeOk root n := by
    rw [stepState_nodes]
    intro n hn
    rcases List.mem_append.mp hn with h | h
    · exact hst n h
    · simp only [List.mem_singleton] at h
      subst h
      exact ⟨v, hroot, rfl⟩
  cases v with
  | obj kvs =>
    apply buildObjChildren_nodesOk root kvs st.next_id path _ ?_ hstep
    intro p hp
    obtain ⟨hnd, hall⟩ := wf_obj hwf
    exact ⟨navigate_snoc_obj hroot (mapGet_of_mem_nodup hnd (by
        obtain ⟨k, c⟩ := p
        exact hp)), hall p hp⟩
  | arr xs =>
    apply buildArrChildren_nodesOk root xs 0 st.next_id path _ ?_ hstep
    intro j c hj
    have hmem : c ∈ xs := by
      have := List.getElem?_eq_some.mp hj
      obtain ⟨hlt, heq⟩ := this
      exact heq ▸ List.getElem_mem hlt
    refine ⟨?_, wf_arr hwf c hmem⟩
    have h0 : (0 : Nat) + j = j := by omega
    rw [h0]
    exact navigate_snoc_arr hroot hj
  | null => exact hstep
  | bool b => exact hstep
  | num l => exact hstep
  | str s => exact hstep

theorem buildObjChildren_nodesOk (root : JsonValue)
    (kvs : List (String × JsonValue)) (pid : Nat) (path : List String)
    (st : JsonGraph)
    (hch : ∀ p ∈ kvs, navigateToPath root (path ++ [p.1]) = some p.2 ∧
      wf p.2 = true)
    (hst : ∀ n ∈ st.nodes, nodeOk root n) :
    ∀ n ∈ (buildObjChildren kvs pid path st).nodes, nodeOk root n := by
  match kvs with
  | [] => rw [buildObjChildren]; exact hst
  | (k, c) :: rest =>
    rw [buildObjChildren]
    apply buildObjChildren_nodesOk root rest pid path _
      (fun p hp => hch p (by simp [hp]))
    by_cases hc : isContainer c
    · rw [if_pos hc]
      have hh := hch (k, c) (by simp)
      exact buildNode_nodesOk root c (some pid) (some k) (path ++ [k]) st
        hh.1 hh.2 hst
    · rw [if_neg hc]
      exact hst

theorem buildArrChildren_nodesOk (root : JsonValue) (xs : List JsonValue)
    (idx pid : Nat) (path : List String) (st : JsonGraph)
    (hch : ∀ (j : Nat) (c : JsonValue), xs[j]? = some c →
      navigateToPath root (path ++ [natToString (idx + j)]) = some c ∧
      wf c = true)
    (hst : ∀ n ∈ st.nodes, nodeOk root n) :
    ∀ n ∈ (buildArrChildren xs idx pid path st).nodes, nodeOk root n := by
  match xs with
  | [] => rw [buildArrChildren]; exact hst
  | c :: rest =>
    rw [buildArrChildren]
    apply buildArrChildren_nodesOk root rest (idx + 1) pid path _ ?_
    · by_cases hc : isContainer c
      · rw [if_pos hc]
        have hh := hch 0 c (by simp)
        rw [Nat.add_zero] at hh
        exact buildNode_nodesOk root c (some pid)
          (some ("[" ++ natToString idx ++ "]")) (path ++ [natToString idx]) st
          hh.1 hh.2 hst
      · rw [if_neg hc]
        exact hst
    · intro j c' hj
      have hh := hch (j + 1) c' (by simpa using hj)
      have harith : idx + (j + 1) = idx + 1 + j := by omega
      rw [harith] at hh
      exact hh

end

/-- **C6** — Path resolution totality of the layout: for every value
given to the layout builder (well-formed in the sense of the
`serde_json::Map` invariant: no duplicate keys) and every node the
builder produces, navigating the original value by the node's recorded
path succeeds and finds a value of the same kind as the node's recorded
kind. -/
theorem claim6_path_totality (g : JsonGraph) (v : JsonValue)
    (hwf : wf v = true) :
    ∀ n ∈ (build_from_json g v).nodes,
      ∃ w, navigateToPath v n.json_path = some w ∧ kindOf w = n.node_type := by
  have hempty : ∀ n ∈ (List.nil : List GraphNode), nodeOk v n := by
    intro n hn; simp at hn
  unfold build_from_json
  cases v with
  | null => intro n hn; simp at hn
  | bool b => exact buildNode_nodesOk _ _ none none [] _ rfl hwf hempty
  | num l => exact buildNode_nodesOk _ _ none none [] _ rfl hwf hempty
  | str s => exact buildNode_nodesOk _ _ none none [] _ rfl hwf hempty
  | arr xs => exact buildNode_nodesOk _ _ none none [] _ rfl hwf hempty
  | obj kvs => exact buildNode_nodesOk _ _ none none [] _ rfl hwf hempty

end JsonEd

namespace JsonEd

/-- A graph with no nodes and no interaction state. -/
def emptyGraph : JsonGraph :=
  { nodes := []
    edges := []
    next_id := 0
    selected_node := none
    editing_cell := none
    adding_state := none
    renaming_key := none
    context_menu := none
    pending_edit := none }

/-- Witness for C6 on the concrete value `{"items": [1]}` and the
builder's node for `["items"]`. -/
theorem claim6_path_totality_witness :
    ∃ w, navigateToPath (JsonValue.obj [("items", .arr [.num "1"])]) ["items"] =
        some w ∧ kindOf w = NodeType.array := by
  apply claim6_path_totality emptyGraph
    (JsonValue.obj [("items", .arr [.num "1"])]) (by rfl)
    ⟨1, NodeType.array, ["items"]⟩
  have h : (build_from_json emptyGraph
      (JsonValue.obj [("items", JsonValue.arr [JsonValue.num "1"])])).nodes =
      [⟨0, NodeType.object, []⟩, ⟨1, NodeType.array, ["items"]⟩] := rfl
  rw [h]
  exact List.mem_cons_of_mem _ (List.mem_cons_self _ _)

end JsonEd

namespace JsonEd

/-- **C8** — Mutation safety, failing evaluation: with the valid document
`[1,2,3]`, the path `["0"]` resolves to the Number `1` — a wrong
container kind for `add_value_at_path` — yet the call with the
one-character value string `"` does not return failure: the coercion
runs before the container-kind check and its slice `&s[1..0]` panics
(modelled `none`).  `delete_value_at_path` and `rename_key_at_path`
never panic (their embeddings are total by type), and `update` and `add`
do return failure whenever navigation itself fails. -/
theorem claim8_mutation_safety_failing :
    (JsonEditor.with_text "[1,2,3]").parsed_value =
      some (.arr [.num "1", .num "2", .num "3"]) ∧
    navigateToPath (.arr [.num "1", .num "2", .num "3"]) ["0"] =
      some (.num "1") ∧
    isContainer (.num "1") = false ∧
    add_value_at_path (JsonEditor.with_text "[1,2,3]") ["0"] "x" "\"" = none :=
  ⟨rfl, rfl, rfl, rfl⟩

end JsonEd

namespace JsonEd

/-! ### Validity for the serialization round-trip -/

/-- A valid number payload: a complete JSON number lexeme (so it consists
only of number characters). -/
def validNum (lit : String) : Bool :=
  jsonNumOk lit.data && lit.data.all isNumChar

mutual

/-- A valid `JsonValue` (spec §8 "any valid JsonValue"): every number
payload is a well-formed JSON number lexeme and every object has
pairwise distinct keys (the `serde_json::Map` invariant). -/
def validDoc : JsonValue → Bool
  | .null | .bool _ => true
  | .num lit => validNum lit
  | .str _ => true
  | .arr xs => validList xs
  | .obj kvs => nodupKeys kvs && validPairs kvs

def validList : List JsonValue → Bool
  | [] => true
  | x :: xs => validDoc x && validList xs

def validPairs : List (String × JsonValue) → Bool
  | [] => true
  | (_, v) :: rest => validDoc v && validPairs rest

end

mutual

/-- No whitespace character occurs in any string payload, object key or
number lexeme of the value. -/
def wsFreeStrings : JsonValue → Bool
  | .null | .bool _ => true
  | .num lit => lit.data.all (fun c => !isWs c)
  | .str s => s.data.all (fun c => !isWs c)
  | .arr xs => wsFreeList xs
  | .obj kvs => wsFreePairs kvs

def wsFreeList : List JsonValue → Bool
  | [] => true
  | x :: xs => wsFreeStrings x && wsFreeList xs

def wsFreePairs : List (String × JsonValue) → Bool
  | [] => true
  | (k, v) :: rest =>
    k.data.all (fun c => !isWs c) && wsFreeStrings v && wsFreePairs rest

end

mutual

/-- Fuel sufficient for `pVal` on the printed form of a value. -/
def pFuel : JsonValue → Nat
  | .null | .bool _ | .num _ | .str _ => 1
  | .arr xs => 1 + pFuelList xs
  | .obj kvs => 1 + pFuelPairs kvs

def pFuelList : List JsonValue → Nat
  | [] => 0
  | x :: xs => 1 + max (pFuel x) (pFuelList xs)

def pFuelPairs : List (String × JsonValue) → Nat
  | [] => 0
  | (_, v) :: rest => 1 + max (pFuel v) (pFuelPairs rest)

end

/-- The remainder after a printed value never begins with a character
that could extend a number lexeme. -/
def numSafe (rest : List Char) : Prop :=
  ∀ c, rest.head? = some c → isNumChar c = false

end JsonEd

namespace JsonEd

/-! ### Lemmas: characters, whitespace and lexing -/

lemma strMk_data (s : String) : (⟨s.data⟩ : String) = s := by cases s; rfl

lemma skipWs_cons_of_not {c : Char} (l : List Char) (h : isWs c = false) :
    skipWs (c :: l) = c :: l := by
  unfold skipWs
  split
  · rename_i heq; injection heq with h1 _; subst h1; simp [isWs] at h
  · rename_i heq; injection heq with h1 _; subst h1; simp [isWs] at h
  · rename_i heq; injection heq with h1 _; subst h1; simp [isWs] at h
  · rename_i heq; injection heq with h1 _; subst h1; simp [isWs] at h
  · rfl

lemma skipWs_indent (n : Nat) (l : List Char) :
    skipWs (indentC n ++ l) = skipWs l := by
  induction n with
  | zero => rfl
  | succ m ih =>
    show skipWs (List.replicate (m + 1) ' ' ++ l) = skipWs l
    rw [List.replicate_succ]
    show skipWs (' ' :: (List.replicate m ' ' ++ l)) = skipWs l
    rw [show skipWs (' ' :: (List.replicate m ' ' ++ l)) =
      skipWs (List.replicate m ' ' ++ l) from rfl]
    exact ih

lemma isDigit_not_ws {c : Char} (h : isDigit c = true) : isWs c = false := by
  simp only [isDigit, Bool.and_eq_true, decide_eq_true_eq] at h
  simp only [isWs, Bool.or_eq_false_iff, decide_eq_false_iff_not]
  refine ⟨⟨⟨?_, ?_⟩, ?_⟩, ?_⟩ <;>
    (intro hc; subst hc; exact absurd h (by decide))

lemma isNumChar_not_ws {c : Char} (h : isNumChar c = true) : isWs c = false := by
  simp only [isNumChar, Bool.or_eq_true, decide_eq_true_eq] at h
  rcases h with ((((hd | h) | h) | h) | h) | h
  · exact isDigit_not_ws hd
  all_goals (subst h; decide)

lemma spanNum_exact :
    ∀ (ds r : List Char), (∀ c ∈ ds, isNumChar c = true) → numSafe r →
      spanNum (ds ++ r) = (ds, r) := by
  intro ds
  induction ds with
  | nil =>
    intro r _ hsafe
    cases r with
    | nil => rfl
    | cons c t =>
      have hc : isNumChar c = false := hsafe c rfl
      simp [spanNum, hc]
  | cons d ds ih =>
    intro r hall hsafe
    have hd : isNumChar d = true := hall d (by simp)
    simp only [List.cons_append, spanNum, hd, if_true]
    show (d :: (spanNum (ds ++ r)).1, (spanNum (ds ++ r)).2) = (d :: ds, r)
    rw [ih r (fun c hc => hall c (by simp [hc])) hsafe]

lemma jsonNumOk_head {cs : List Char} (h : jsonNumOk cs = true) :
    ∃ c t, cs = c :: t ∧ (c = '-' ∨ isDigit c = true) := by
  cases cs with
  | nil => exact absurd h (by decide)
  | cons c t =>
    refine ⟨c, t, rfl, ?_⟩
    by_cases hc : c = '-'
    · exact Or.inl hc
    · right
      unfold jsonNumOk at h
      rw [if_neg (by simp [hc])] at h
      cases hdig : isDigit c with
      | true => rfl
      | false =>
        exfalso
        simp only [spanDigits, hdig, if_false] at h
        exact absurd h (by simp)

end JsonEd

namespace JsonEd

lemma hexVal_hexDig {d : Nat} (h : d < 16) : hexVal (hexDig d) = some d := by
  interval_cases d <;> decide

set_option maxHeartbeats 2000000 in
lemma pString_cons_other {c : Char} (l : List Char) (h1 : c ≠ '"')
    (h2 : c ≠ '\\') :
    pString (c :: l) = (pString l).map (fun p => (c :: p.1, p.2)) := by
  unfold pString
  split
  · rename_i heq; cases heq
  · rename_i heq; injection heq with ha _; exact absurd ha h1
  · rename_i heq; injection heq with ha _; exact absurd ha h2
  · rename_i heq; injection heq with ha _; exact absurd ha h2
  · rename_i heq; injection heq with ha _; exact absurd ha h2
  · rename_i heq; injection heq with ha _; exact absurd ha h2
  · rename_i heq; injection heq with ha _; exact absurd ha h2
  · rename_i heq; injection heq with ha _; exact absurd ha h2
  · rename_i heq; injection heq with ha _; exact absurd ha h2
  · rename_i heq; injection heq with ha _; exact absurd ha h2
  · rename_i heq; injection heq with ha _; exact absurd ha h2
  · rename_i heq; injection heq with ha _; exact absurd ha h2
  · rename_i heq
    injection heq with ha hb
    subst ha
    subst hb
    conv_rhs => rw [← pString.eq_def]

set_option maxHeartbeats 2000000 in
lemma pString_escape :
    ∀ (cs rest : List Char),
      pString (escapeString cs ++ '"' :: rest) = some (cs, rest) := by
  intro cs
  induction cs with
  | nil => intro rest; rfl
  | cons c cs ih =>
    intro rest
    show pString ((escapeChar c ++ escapeString cs) ++ '"' :: rest) = _
    rw [List.append_assoc]
    by_cases hq : c = '"'
    · subst hq
      show pString ('\\' :: '"' :: (escapeString cs ++ '"' :: rest)) = _
      simp only [pString, ih rest, Option.map_some']
    · by_cases hb : c = '\\'
      · subst hb
        show pString ('\\' :: '\\' :: (escapeString cs ++ '"' :: rest)) = _
        simp only [pString, ih rest, Option.map_some']
      · have hofn : Char.ofNat c.toNat = c := Char.ofNat_toNat c
        by_cases h8 : c.toNat = 8
        · have he : escapeChar c = ['\\', 'b'] := by
            unfold escapeChar
            rw [if_neg hq, if_neg hb, if_pos h8]
          rw [he]
          show pString ('\\' :: 'b' :: (escapeString cs ++ '"' :: rest)) = _
          simp only [pString, ih rest, Option.map_some']
          rw [← hofn, h8]
        · by_cases h9 : c.toNat = 9
          · have he : escapeChar c = ['\\', 't'] := by
              unfold escapeChar
              rw [if_neg hq, if_neg hb, if_neg h8, if_pos h9]
            rw [he]
            show pString ('\\' :: 't' :: (escapeString cs ++ '"' :: rest)) = _
            simp only [pString, ih rest, Option.map_some']
            have : c = '\t' := by rw [← hofn, h9]
            rw [this]
          · by_cases h10 : c.toNat = 10
            · have he : escapeChar c = ['\\', 'n'] := by
                unfold escapeChar
                rw [if_neg hq, if_neg hb, if_neg h8, if_neg h9, if_pos h10]
              rw [he]
              show pString ('\\' :: 'n' :: (escapeString cs ++ '"' :: rest)) = _
              simp only [pString, ih rest, Option.map_some']
              have : c = '\n' := by rw [← hofn, h10]
              rw [this]
            · by_cases h12 : c.toNat = 12
              · have he : escapeChar c = ['\\', 'f'] := by
                  unfold escapeChar
                  rw [if_neg hq, if_neg hb, if_neg h8, if_neg h9, if_neg h10,
                    if_pos h12]
                rw [he]
                show pString ('\\' :: 'f' :: (escapeString cs ++ '"' :: rest)) = _
                simp only [pString, ih rest, Option.map_some']
                rw [← hofn, h12]
              · by_cases h13 : c.toNat = 13
                · have he : escapeChar c = ['\\', 'r'] := by
                    unfold escapeChar
                    rw [if_neg hq, if_neg hb, if_neg h8, if_neg h9, if_neg h10,
                      if_neg h12, if_pos h13]
                  rw [he]
                  show pString ('\\' :: 'r' ::
                    (escapeString cs ++ '"' :: rest)) = _
                  simp only [pString, ih rest, Option.map_some']
                  rw [← hofn, h13]
                · by_cases h32 : c.toNat < 32
                  · have he : escapeChar c = ['\\', 'u', '0', '0',
                        hexDig (c.toNat / 16), hexDig (c.toNat % 16)] := by
                      unfold escapeChar
                      rw [if_neg hq, if_neg hb, if_neg h8, if_neg h9,
                        if_neg h10, if_neg h12, if_neg h13, if_pos h32]
                    rw [he]
                    show pString ('\\' :: 'u' :: '0' :: '0' ::
                      hexDig (c.toNat / 16) :: hexDig (c.toNat % 16) ::
                      (escapeString cs ++ '"' :: rest)) = _
                    have hd1 : c.toNat / 16 < 16 := by omega
                    have hd2 : c.toNat % 16 < 16 := by omega
                    simp only [pString, hexVal_hexDig hd1, hexVal_hexDig hd2,
                      ih rest, Option.map_some']
                    have harith :
                        ((((0 : Nat) * 16 + 0) * 16 + c.toNat / 16) * 16 +
                          c.toNat % 16) = c.toNat := by omega
                    rw [show hexVal '0' = some 0 from rfl]
                    simp only [harith, hofn]
                  · have he : escapeChar c = [c] := by
                      unfold escapeChar
                      rw [if_neg hq, if_neg hb, if_neg h8, if_neg h9,
                        if_neg h10, if_neg h12, if_neg h13, if_neg h32]
                    rw [he]
                    show pString (c :: (escapeString cs ++ '"' :: rest)) = _
                    rw [pString_cons_other _ hq hb, ih rest]
                    rfl

end JsonEd

namespace JsonEd

lemma pNum_valid {litd : List Char} (rest : List Char)
    (hok : jsonNumOk litd = true) (hall : litd.all isNumChar = true)
    (hsafe : numSafe rest) :
    pNum (litd ++ rest) = some (litd, rest) := by
  unfold pNum
  rw [spanNum_exact litd rest (fun c hc => List.all_eq_true.mp hall c hc) hsafe]
  simp [hok]

lemma pVal_num_entry (fuel : Nat) {c : Char} (r : List Char)
    (hc : c = '-' ∨ isDigit c = true) :
    pVal (fuel + 1) (c :: r) =
      (pNum (c :: r)).map (fun p => (JsonValue.num ⟨p.1⟩, p.2)) := by
  have hnw : isWs c = false := by
    rcases hc with h | h
    · subst h; decide
    · exact isDigit_not_ws h
  simp only [pVal]
  rw [skipWs_cons_of_not r hnw]
  split
  · rename_i heq
    injection heq with ha _
    subst ha
    rcases hc with h | h
    · exact absurd h (by decide)
    · exact absurd h (by decide)
  · rename_i heq
    injection heq with ha _
    subst ha
    rcases hc with h | h
    · exact absurd h (by decide)
    · exact absurd h (by decide)
  · rename_i heq
    injection heq with ha _
    subst ha
    rcases hc with h | h
    · exact absurd h (by decide)
    · exact absurd h (by decide)
  · rename_i heq
    injection heq with ha _
    subst ha
    rcases hc with h | h
    · exact absurd h (by decide)
    · exact absurd h (by decide)
  · rename_i heq
    injection heq with ha _
    subst ha
    rcases hc with h | h
    · exact absurd h (by decide)
    · exact absurd h (by decide)
  · rename_i heq
    injection heq with ha _
    subst ha
    rcases hc with h | h
    · exact absurd h (by decide)
    · exact absurd h (by decide)
  · rename_i heq
    injection heq with ha hb
    subst ha
    subst hb
    rw [if_pos (by
      rcases hc with h | h
      · simp [h]
      · simp [h])]
  · rename_i heq
    cases heq

end JsonEd

namespace JsonEd

lemma skipWs_cons_of_ws {c : Char} (l : List Char) (h : isWs c = true) :
    skipWs (c :: l) = skipWs l := by
  simp only [isWs, Bool.or_eq_true, decide_eq_true_eq] at h
  rcases h with ((h | h) | h) | h <;> (subst h; rfl)

lemma skipWs_idem : ∀ l : List Char, skipWs (skipWs l) = skipWs l := by
  intro l
  induction l with
  | nil => rfl
  | cons c t ih =>
    by_cases hw : isWs c
    · rw [skipWs_cons_of_ws t hw]
      exact ih
    · rw [skipWs_cons_of_not t (by simpa using hw),
        skipWs_cons_of_not t (by simpa using hw)]

lemma pVal_congr_skipWs (fuel : Nat) {l l' : List Char}
    (h : skipWs l = skipWs l') :
    pVal (fuel + 1) l = pVal (fuel + 1) l' := by
  simp only [pVal]
  rw [h]

lemma mapGet_append_singleton (key k : String) (v : JsonValue) :
    ∀ acc : List (String × JsonValue),
      mapGet (acc ++ [(k, v)]) key =
        match mapGet acc key with
        | some w => some w
        | none => if k = key then some v else none := by
  intro acc
  induction acc with
  | nil => rfl
  | cons p rest ih =>
    obtain ⟨k0, v0⟩ := p
    by_cases hk : k0 = key
    · simp [mapGet, hk]
    · simp only [List.cons_append, mapGet, if_neg hk]
      exact ih

lemma mapInsert_fresh (k : String) (v : JsonValue) :
    ∀ acc : List (String × JsonValue), mapGet acc k = none →
      mapInsert acc k v = acc ++ [(k, v)] := by
  intro acc
  induction acc with
  | nil => intro _; rfl
  | cons p rest ih =>
    intro h
    obtain ⟨k0, v0⟩ := p
    simp only [mapGet] at h
    by_cases hk : k0 = k
    · rw [if_pos hk] at h; cases h
    · rw [if_neg hk] at h
      simp only [mapInsert, if_neg hk, List.cons_append]
      rw [ih h]

lemma pFuel_pos : ∀ v : JsonValue, 1 ≤ pFuel v := by
  intro v
  cases v <;> simp [pFuel]

/-- The first character of the compact print: never whitespace, a
closing bracket, a closing brace, a comma or a colon. -/
lemma compact_head {v : JsonValue} (hv : validDoc v = true) :
    ∃ c t, compactVal v = c :: t ∧ isWs c = false ∧ c ≠ ']' ∧ c ≠ '}' := by
  cases v with
  | null => exact ⟨'n', _, rfl, by decide, by decide, by decide⟩
  | bool b =>
    cases b with
    | false => exact ⟨'f', _, rfl, by decide, by decide, by decide⟩
    | true => exact ⟨'t', _, rfl, by decide, by decide, by decide⟩
  | num lit =>
    have hok : jsonNumOk lit.data = true := by
      simp only [validDoc, validNum, Bool.and_eq_true] at hv
      exact hv.1
    obtain ⟨c, t, hct, hc⟩ := jsonNumOk_head hok
    refine ⟨c, t, by simp [compactVal, hct], ?_, ?_, ?_⟩
    · rcases hc with h | h
      · subst h; decide
      · exact isDigit_not_ws h
    · rcases hc with h | h
      · subst h; decide
      · intro hc'; subst hc'; exact absurd h (by decide)
    · rcases hc with h | h
      · subst h; decide
      · intro hc'; subst hc'; exact absurd h (by decide)
  | str s => exact ⟨'"', _, rfl, by decide, by decide, by decide⟩
  | arr xs =>
    cases xs with
    | nil => exact ⟨'[', _, rfl, by decide, by decide, by decide⟩
    | cons x t => exact ⟨'[', _, rfl, by decide, by decide, by decide⟩
  | obj kvs =>
    cases kvs with
    | nil => exact ⟨'{', _, rfl, by decide, by decide, by decide⟩
    | cons p t => exact ⟨'{', _, rfl, by decide, by decide, by decide⟩

/-- The pretty print of a value begins with the same character as its
compact print. -/
lemma pretty_head {v : JsonValue} (ind : Nat) (hv : validDoc v = true) :
    ∃ c t, prettyVal ind v = c :: t ∧ isWs c = false ∧ c ≠ ']' ∧ c ≠ '}' := by
  cases v with
  | null => exact ⟨'n', _, rfl, by decide, by decide, by decide⟩
  | bool b =>
    cases b with
    | false => exact ⟨'f', _, rfl, by decide, by decide, by decide⟩
    | true => exact ⟨'t', _, rfl, by decide, by decide, by decide⟩
  | num lit =>
    have hok : jsonNumOk lit.data = true := by
      simp only [validDoc, validNum, Bool.and_eq_true] at hv
      exact hv.1
    obtain ⟨c, t, hct, hc⟩ := jsonNumOk_head hok
    refine ⟨c, t, by simp [prettyVal, compactVal, hct], ?_, ?_, ?_⟩
    · rcases hc with h | h
      · subst h; decide
      · exact isDigit_not_ws h
    · rcases hc with h | h
      · subst h; decide
      · intro hc'; subst hc'; exact absurd h (by decide)
    · rcases hc with h | h
      · subst h; decide
      · intro hc'; subst hc'; exact absurd h (by decide)
  | str s => exact ⟨'"', _, rfl, by decide, by decide, by decide⟩
  | arr xs =>
    cases xs with
    | nil => exact ⟨'[', _, rfl, by decide, by decide, by decide⟩
    | cons x t => exact ⟨'[', _, rfl, by decide, by decide, by decide⟩
  | obj kvs =>
    cases kvs with
    | nil => exact ⟨'{', _, rfl, by decide, by decide, by decide⟩
    | cons p t => exact ⟨'{', _, rfl, by decide, by decide, by decide⟩

lemma numSafe_nil : numSafe [] := by intro c hc; cases hc

lemma numSafe_cons {c : Char} (t : List Char) (h : isNumChar c = false) :
    numSafe (c :: t) := by
  intro c' hc'
  injection hc' with h1
  subst h1
  exact h

end JsonEd

namespace JsonEd

/-! ### Lemmas: the parser fuel is covered by the printed length -/

mutual

theorem pFuel_le_compact (v : JsonValue) (hv : validDoc v = true) :
    pFuel v ≤ (compactVal v).length := by
  cases v with
  | null => simp [pFuel, compactVal]
  | bool b =>
    cases b with
    | false => simp [pFuel, compactVal]
    | true => simp [pFuel, compactVal]
  | num lit =>
    have hok : jsonNumOk lit.data = true := by
      simp only [validDoc, validNum, Bool.and_eq_true] at hv
      exact hv.1
    obtain ⟨c, t, hct, _⟩ := jsonNumOk_head hok
    simp [pFuel, compactVal, hct]
  | str s => simp [pFuel, printString, compactVal]
  | arr xs =>
    cases xs with
    | nil => simp [pFuel, pFuelList, compactVal]
    | cons x t =>
      have hx : validDoc x = true := by
        simp only [validDoc, validList, Bool.and_eq_true] at hv
        exact hv.1
      have ht : validList t = true := by
        simp only [validDoc, validList, Bool.and_eq_true] at hv
        exact hv.2
      have h1 := pFuel_le_compact x hx
      have h2 := pFuelList_le_compact t ht
      simp only [pFuel, pFuelList, compactVal, List.length_cons,
        List.length_append]
      omega
  | obj kvs =>
    cases kvs with
    | nil => simp [pFuel, pFuelPairs, compactVal]
    | cons p t =>
      obtain ⟨k, v0⟩ := p
      have hx : validDoc v0 = true := by
        simp only [validDoc, validPairs, Bool.and_eq_true] at hv
        exact hv.2.1
      have ht : validPairs t = true := by
        simp only [validDoc, validPairs, Bool.and_eq_true] at hv
        exact hv.2.2
      have h1 := pFuel_le_compact v0 hx
      have h2 := pFuelPairs_le_compact t ht
      simp only [pFuel, pFuelPairs, compactVal, compactMember, printString,
        List.length_cons, List.length_append]
      omega

theorem pFuelList_le_compact (xs : List JsonValue) (hv : validList xs = true) :
    pFuelList xs ≤ (compactElems xs).length := by
  cases xs with
  | nil => simp [pFuelList, compactElems]
  | cons x t =>
    have hx : validDoc x = true := by
      simp only [validList, Bool.and_eq_true] at hv
      exact hv.1
    have ht : validList t = true := by
      simp only [validList, Bool.and_eq_true] at hv
      exact hv.2
    have h1 := pFuel_le_compact x hx
    have h2 := pFuelList_le_compact t ht
    simp only [pFuelList, compactElems, List.length_cons, List.length_append]
    omega

theorem pFuelPairs_le_compact (kvs : List (String × JsonValue))
    (hv : validPairs kvs = true) :
    pFuelPairs kvs ≤ (compactMembers kvs).length := by
  cases kvs with
  | nil => simp [pFuelPairs, compactMembers]
  | cons p t =>
    obtain ⟨k, v0⟩ := p
    have hx : validDoc v0 = true := by
      simp only [validPairs, Bool.and_eq_true] at hv
      exact hv.1
    have ht : validPairs t = true := by
      simp only [validPairs, Bool.and_eq_true] at hv
      exact hv.2
    have h1 := pFuel_le_compact v0 hx
    have h2 := pFuelPairs_le_compact t ht
    simp only [pFuelPairs, compactMembers, compactMember, printString,
      List.length_cons, List.length_append]
    omega

end

end JsonEd

namespace JsonEd

mutual

theorem pFuel_le_pretty (v : JsonValue) (ind : Nat) (hv : validDoc v = true) :
    pFuel v ≤ (prettyVal ind v).length := by
  cases v with
  | null => simp [pFuel, prettyVal, compactVal]
  | bool b =>
    cases b with
    | false => simp [pFuel, prettyVal, compactVal]
    | true => simp [pFuel, prettyVal, compactVal]
  | num lit =>
    have hok : jsonNumOk lit.data = true := by
      simp only [validDoc, validNum, Bool.and_eq_true] at hv
      exact hv.1
    obtain ⟨c, t, hct, _⟩ := jsonNumOk_head hok
    simp [pFuel, prettyVal, compactVal, hct]
  | str s => simp [pFuel, prettyVal, printString, compactVal]
  | arr xs =>
    cases xs with
    | nil => simp [pFuel, pFuelList, prettyVal]
    | cons x t =>
      have hx : validDoc x = true := by
        simp only [validDoc, validList, Bool.and_eq_true] at hv
        exact hv.1
      have ht : validList t = true := by
        simp only [validDoc, validList, Bool.and_eq_true] at hv
        exact hv.2
      have h1 := pFuel_le_pretty x (ind + 2) hx
      have h2 := pFuelList_le_pretty t (ind + 2) ht
      simp only [pFuel, pFuelList, prettyVal, List.length_cons,
        List.length_append, indentC, List.length_replicate]
      omega
  | obj kvs =>
    cases kvs with
    | nil => simp [pFuel, pFuelPairs, prettyVal]
    | cons p t =>
      obtain ⟨k, v0⟩ := p
      have hx : validDoc v0 = true := by
        simp only [validDoc, validPairs, Bool.and_eq_true] at hv
        exact hv.2.1
      have ht : validPairs t = true := by
        simp only [validDoc, validPairs, Bool.and_eq_true] at hv
        exact hv.2.2
      have h1 := pFuel_le_pretty v0 (ind + 2) hx
      have h2 := pFuelPairs_le_pretty t (ind + 2) ht
      simp only [pFuel, pFuelPairs, prettyVal, prettyMember, printString,
        List.length_cons, List.length_append, indentC, List.length_replicate]
      omega

theorem pFuelList_le_pretty (xs : List JsonValue) (ind : Nat)
    (hv : validList xs = true) :
    pFuelList xs ≤ (prettyElems ind xs).length := by
  cases xs with
  | nil => simp [pFuelList, prettyElems]
  | cons x t =>
    have hx : validDoc x = true := by
      simp only [validList, Bool.and_eq_true] at hv
      exact hv.1
    have ht : validList t = true := by
      simp only [validList, Bool.and_eq_true] at hv
      exact hv.2
    have h1 := pFuel_le_pretty x ind hx
    have h2 := pFuelList_le_pretty t ind ht
    simp only [pFuelList, prettyElems, List.length_cons, List.length_append,
      indentC, List.length_replicate]
    omega

theorem pFuelPairs_le_pretty (kvs : List (String × JsonValue)) (ind : Nat)
    (hv : validPairs kvs = true) :
    pFuelPairs kvs ≤ (prettyMembers ind kvs).length := by
  cases kvs with
  | nil => simp [pFuelPairs, prettyMembers]
  | cons p t =>
    obtain ⟨k, v0⟩ := p
    have hx : validDoc v0 = true := by
      simp only [validPairs, Bool.and_eq_true] at hv
      exact hv.1
    have ht : validPairs t = true := by
      simp only [validPairs, Bool.and_eq_true] at hv
      exact hv.2
    have h1 := pFuel_le_pretty v0 ind hx
    have h2 := pFuelPairs_le_pretty t ind ht
    simp only [pFuelPairs, prettyMembers, prettyMember, printString,
      List.length_cons, List.length_append, indentC, List.length_replicate]
    omega

end

end JsonEd

namespace JsonEd

/-! ### The round-trip: parsing a printed value -/

mutual

theorem pVal_compact (v : JsonValue) (rest : List Char) (fuel : Nat)
    (hv : validDoc v = true) (hfuel : pFuel v ≤ fuel) (hsafe : numSafe rest) :
    pVal fuel (compactVal v ++ rest) = some (v, rest) := by
  cases fuel with
  | zero => exact absurd hfuel (by have := pFuel_pos v; omega)
  | succ f =>
    cases v with
    | null => rfl
    | bool b => cases b with
      | false => rfl
      | true => rfl
    | num lit =>
      have hok : jsonNumOk lit.data = true := by
        simp only [validDoc, validNum, Bool.and_eq_true] at hv
        exact hv.1
      have hall : lit.data.all isNumChar = true := by
        simp only [validDoc, validNum, Bool.and_eq_true] at hv
        exact hv.2
      obtain ⟨c, t, hct, hc⟩ := jsonNumOk_head hok
      show pVal (f + 1) (lit.data ++ rest) = some (.num lit, rest)
      rw [hct, List.cons_append, pVal_num_entry f (t ++ rest) hc]
      have hpn := pNum_valid rest hok hall hsafe
      rw [hct, List.cons_append] at hpn
      rw [hpn]
      simp only [Option.map_some']
      rw [← hct]
    | str s =>
      show pVal (f + 1) (printString s ++ rest) = some (.str s, rest)
      have hshape : printString s ++ rest =
          '"' :: (escapeString s.data ++ '"' :: rest) := by
        simp [printString]
      rw [hshape]
      show (pString (escapeString s.data ++ '"' :: rest)).map
        (fun p => (JsonValue.str ⟨p.1⟩, p.2)) = _
      rw [pString_escape]
      simp only [Option.map_some']
    | arr xs =>
      cases xs with
      | nil => rfl
      | cons x t =>
        have hx : validDoc x = true := by
          simp only [validDoc, validList, Bool.and_eq_true] at hv
          exact hv.1
        have ht : validList t = true := by
          simp only [validDoc, validList, Bool.and_eq_true] at hv
          exact hv.2
        have hshape : compactVal (.arr (x :: t)) ++ rest =
            '[' :: (compactVal x ++ (compactElems t ++ ']' :: rest)) := by
          simp [compactVal]
        rw [hshape]
        obtain ⟨c0, t0, hc0, hw0, hnb0, _⟩ := compact_head hx
        have hskip : skipWs (compactVal x ++ (compactElems t ++ ']' :: rest)) =
            compactVal x ++ (compactElems t ++ ']' :: rest) := by
          conv_lhs => rw [hc0, List.cons_append]
          rw [skipWs_cons_of_not _ hw0, ← List.cons_append, ← hc0]
        have hhead : (compactVal x ++ (compactElems t ++ ']' :: rest)).head? =
            some c0 := by
          rw [hc0]
          rfl
        show (if (skipWs (compactVal x ++ (compactElems t ++ ']' :: rest))).head?
              = some ']' then
            some (JsonValue.arr [],
              (skipWs (compactVal x ++ (compactElems t ++ ']' :: rest))).tail)
          else
            (pElems f (skipWs (compactVal x ++
                (compactElems t ++ ']' :: rest)))).map
              (fun p => (JsonValue.arr p.1, p.2))) = some (.arr (x :: t), rest)
        rw [hskip, hhead]
        rw [if_neg (by simp [hnb0])]
        have hfl : pFuelList (x :: t) ≤ f := by
          simp only [pFuel] at hfuel
          omega
        cases f with
        | zero =>
          exact absurd hfl (by simp only [pFuelList]; omega)
        | succ f2 =>
          rw [pElems_compact x t rest f2 hx ht hfl hsafe]
          rfl
    | obj kvs =>
      cases kvs with
      | nil => rfl
      | cons p t =>
        obtain ⟨k, v0⟩ := p
        have hx : validDoc v0 = true := by
          simp only [validDoc, validPairs, Bool.and_eq_true] at hv
          exact hv.2.1
        have ht : validPairs t = true := by
          simp only [validDoc, validPairs, Bool.and_eq_true] at hv
          exact hv.2.2
        have hnd : nodupKeys ((k, v0) :: t) = true := by
          simp only [validDoc, Bool.and_eq_true] at hv
          exact hv.1
        have hshape : compactVal (.obj ((k, v0) :: t)) ++ rest =
            '{' :: (printString k ++
              (':' :: compactVal v0 ++ (compactMembers t ++ '}' :: rest))) := by
          simp [compactVal, compactMember]
        rw [hshape]
        have hskip : skipWs (printString k ++
            (':' :: compactVal v0 ++ (compactMembers t ++ '}' :: rest))) =
            printString k ++
              (':' :: compactVal v0 ++ (compactMembers t ++ '}' :: rest)) := by
          rw [show printString k ++
            (':' :: compactVal v0 ++ (compactMembers t ++ '}' :: rest)) =
            '"' :: (escapeString k.data ++ ['"'] ++
              (':' :: compactVal v0 ++ (compactMembers t ++ '}' :: rest)))
            from by simp [printString]]
          rfl
        have hhead : (printString k ++
            (':' :: compactVal v0 ++ (compactMembers t ++ '}' :: rest))).head? =
            some '"' := by
          rw [show printString k ++
            (':' :: compactVal v0 ++ (compactMembers t ++ '}' :: rest)) =
            '"' :: (escapeString k.data ++ ['"'] ++
              (':' :: compactVal v0 ++ (compactMembers t ++ '}' :: rest)))
            from by simp [printString]]
          rfl
        show (if (skipWs (printString k ++
              (':' :: compactVal v0 ++ (compactMembers t ++ '}' :: rest)))).head?
              = some '}' then
            some (JsonValue.obj [],
              (skipWs (printString k ++ (':' :: compactVal v0 ++
                (compactMembers t ++ '}' :: rest)))).tail)
          else
            (pMembers f (skipWs (printString k ++ (':' :: compactVal v0 ++
                (compactMembers t ++ '}' :: rest)))) []).map
              (fun p => (JsonValue.obj p.1, p.2))) =
          some (.obj ((k, v0) :: t), rest)
        rw [hskip, hhead]
        rw [if_neg (by simp)]
        have hfl : pFuelPairs ((k, v0) :: t) ≤ f := by
          simp only [pFuel] at hfuel
          omega
        cases f with
        | zero =>
          exact absurd hfl (by simp only [pFuelPairs]; omega)
        | succ f2 =>
          rw [pMembers_compact k v0 t rest f2 [] hx ht hfl hsafe hnd
            (fun p _ => rfl)]
          rfl
termination_by fuel
decreasing_by all_goals omega

theorem pElems_compact (x : JsonValue) (xs : List JsonValue) (rest : List Char)
    (fuel : Nat) (hx : validDoc x = true) (hxs : validList xs = true)
    (hfuel : pFuelList (x :: xs) ≤ fuel + 1) (hsafe : numSafe rest) :
    pElems (fuel + 1) (compactVal x ++ (compactElems xs ++ ']' :: rest)) =
      some (x :: xs, rest) := by
  have hsafe' : numSafe (compactElems xs ++ ']' :: rest) := by
    cases xs with
    | nil => exact numSafe_cons _ (by decide)
    | cons y ys => exact numSafe_cons _ (by decide)
  have hfx : pFuel x ≤ fuel := by
    simp only [pFuelList] at hfuel
    omega
  show (match pVal fuel (compactVal x ++ (compactElems xs ++ ']' :: rest)) with
    | some (v, r) =>
      match skipWs r with
      | ',' :: r2 => (pElems fuel r2).map (fun p => (v :: p.1, p.2))
      | ']' :: r2 => some ([v], r2)
      | _ => none
    | none => none) = some (x :: xs, rest)
  rw [pVal_compact x (compactElems xs ++ ']' :: rest) fuel hx hfx hsafe']
  cases xs with
  | nil => rfl
  | cons y ys =>
    have hy : validDoc y = true := by
      simp only [validList, Bool.and_eq_true] at hxs
      exact hxs.1
    have hys : validList ys = true := by
      simp only [validList, Bool.and_eq_true] at hxs
      exact hxs.2
    have hshape : compactElems (y :: ys) ++ ']' :: rest =
        ',' :: (compactVal y ++ (compactElems ys ++ ']' :: rest)) := by
      simp [compactElems]
    rw [hshape]
    show (match skipWs (',' :: (compactVal y ++ (compactElems ys ++ ']' :: rest))) with
      | ',' :: r2 => (pElems fuel r2).map (fun p => (x :: p.1, p.2))
      | ']' :: r2 => some ([x], r2)
      | _ => none) = some (x :: y :: ys, rest)
    rw [show skipWs (',' :: (compactVal y ++ (compactElems ys ++ ']' :: rest))) =
      ',' :: (compactVal y ++ (compactElems ys ++ ']' :: rest)) from rfl]
    have hfl : pFuelList (y :: ys) ≤ fuel := by
      simp only [pFuelList] at hfuel ⊢
      omega
    cases fuel with
    | zero => exact absurd hfl (by simp only [pFuelList]; omega)
    | succ f2 =>
      show (pElems (f2 + 1)
          (compactVal y ++ (compactElems ys ++ ']' :: rest))).map
        (fun p => (x :: p.1, p.2)) = some (x :: y :: ys, rest)
      rw [pElems_compact y ys rest f2 hy hys hfl hsafe]
      rfl
termination_by fuel + 1
decreasing_by all_goals omega

theorem pMembers_compact (k : String) (v : JsonValue)
    (kvs : List (String × JsonValue)) (rest : List Char) (fuel : Nat)
    (acc : List (String × JsonValue)) (hv : validDoc v = true)
    (hkvs : validPairs kvs = true)
    (hfuel : pFuelPairs ((k, v) :: kvs) ≤ fuel + 1) (hsafe : numSafe rest)
    (hnd : nodupKeys ((k, v) :: kvs) = true)
    (hfresh : ∀ p ∈ (k, v) :: kvs, mapGet acc p.1 = none) :
    pMembers (fuel + 1)
        (printString k ++
          (':' :: compactVal v ++ (compactMembers kvs ++ '}' :: rest))) acc =
      some (acc ++ (k, v) :: kvs, rest) := by
  have hshape : printString k ++
      (':' :: compactVal v ++ (compactMembers kvs ++ '}' :: rest)) =
      '"' :: (escapeString k.data ++
        '"' :: (':' :: (compactVal v ++ (compactMembers kvs ++ '}' :: rest)))) := by
    simp [printString]
  rw [hshape]
  show (match pString (escapeString k.data ++
      '"' :: (':' :: (compactVal v ++ (compactMembers kvs ++ '}' :: rest)))) with
    | some (kcs, r2) =>
      match skipWs r2 with
      | ':' :: r3 =>
        match pVal fuel r3 with
        | some (v2, r4) =>
          let acc' := mapInsert acc ⟨kcs⟩ v2
          match skipWs r4 with
          | ',' :: r5 => pMembers fuel r5 acc'
          | '}' :: r5 => some (acc', r5)
          | _ => none
        | none => none
      | _ => none
    | none => none) = some (acc ++ (k, v) :: kvs, rest)
  rw [pString_escape]
  show (match skipWs (':' :: (compactVal v ++ (compactMembers kvs ++ '}' :: rest))) with
    | ':' :: r3 =>
      match pVal fuel r3 with
      | some (v2, r4) =>
        let acc' := mapInsert acc ⟨k.data⟩ v2
        match skipWs r4 with
        | ',' :: r5 => pMembers fuel r5 acc'
        | '}' :: r5 => some (acc', r5)
        | _ => none
      | none => none
    | _ => none) = some (acc ++ (k, v) :: kvs, rest)
  rw [show skipWs (':' :: (compactVal v ++ (compactMembers kvs ++ '}' :: rest))) =
    ':' :: (compactVal v ++ (compactMembers kvs ++ '}' :: rest)) from rfl]
  have hsafe' : numSafe (compactMembers kvs ++ '}' :: rest) := by
    cases kvs with
    | nil => exact numSafe_cons _ (by decide)
    | cons q qs => exact numSafe_cons _ (by decide)
  have hfv : pFuel v ≤ fuel := by
    simp only [pFuelPairs] at hfuel
    omega
  show (match pVal fuel (compactVal v ++ (compactMembers kvs ++ '}' :: rest)) with
    | some (v2, r4) =>
      match skipWs r4 with
      | ',' :: r5 => pMembers fuel r5 (mapInsert acc ⟨k.data⟩ v2)
      | '}' :: r5 => some (mapInsert acc ⟨k.data⟩ v2, r5)
      | _ => none
    | none => none) = some (acc ++ (k, v) :: kvs, rest)
  rw [pVal_compact v (compactMembers kvs ++ '}' :: rest) fuel hv hfv hsafe']
  have hkfresh : mapGet acc k = none := hfresh (k, v) (by simp)
  have hacc : mapInsert acc (⟨k.data⟩ : String) v = acc ++ [(k, v)] := by
    rw [strMk_data]
    exact mapInsert_fresh k v acc hkfresh
  cases kvs with
  | nil =>
    show (match skipWs ('}' :: rest) with
      | ',' :: r5 => pMembers fuel r5 (mapInsert acc ⟨k.data⟩ v)
      | '}' :: r5 => some (mapInsert acc ⟨k.data⟩ v, r5)
      | _ => none) = some (acc ++ [(k, v)], rest)
    rw [show skipWs ('}' :: rest) = '}' :: rest from rfl]
    rw [hacc]
    rfl
  | cons q qs =>
    obtain ⟨k2, v2⟩ := q
    have hv2 : validDoc v2 = true := by
      simp only [validPairs, Bool.and_eq_true] at hkvs
      exact hkvs.1
    have hqs : validPairs qs = true := by
      simp only [validPairs, Bool.and_eq_true] at hkvs
      exact hkvs.2
    have hshape2 : compactMembers ((k2, v2) :: qs) ++ '}' :: rest =
        ',' :: (printString k2 ++
          (':' :: compactVal v2 ++ (compactMembers qs ++ '}' :: rest))) := by
      simp [compactMembers, compactMember]
    rw [hshape2]
    show (match skipWs (',' :: (printString k2 ++
        (':' :: compactVal v2 ++ (compactMembers qs ++ '}' :: rest)))) with
      | ',' :: r5 => pMembers fuel r5 (mapInsert acc ⟨k.data⟩ v)
      | '}' :: r5 => some (mapInsert acc ⟨k.data⟩ v, r5)
      | _ => none) = some (acc ++ (k, v) :: (k2, v2) :: qs, rest)
    rw [show skipWs (',' :: (printString k2 ++
        (':' :: compactVal v2 ++ (compactMembers qs ++ '}' :: rest)))) =
      ',' :: (printString k2 ++
        (':' :: compactVal v2 ++ (compactMembers qs ++ '}' :: rest))) from rfl]
    have hfl : pFuelPairs ((k2, v2) :: qs) ≤ fuel := by
      simp only [pFuelPairs] at hfuel ⊢
      omega
    have hnd2 : nodupKeys ((k2, v2) :: qs) = true := by
      simp only [nodupKeys, Bool.and_eq_true] at hnd ⊢
      exact hnd.2
    have hfresh2 : ∀ p ∈ (k2, v2) :: qs, mapGet (acc ++ [(k, v)]) p.1 = none := by
      intro p hp
      rw [mapGet_append_singleton]
      rw [hfresh p (by simp [hp])]
      have hkp : k ≠ p.1 := by
        simp only [nodupKeys, Bool.and_eq_true, Bool.not_eq_true'] at hnd
        intro hk
        have : ((k2, v2) :: qs).any (fun q => q.1 = k) = true := by
          apply List.any_eq_true.mpr
          exact ⟨p, hp, by simp [hk]⟩
        rw [this] at hnd
        exact absurd hnd.1 (by decide)
      simp [hkp]
    cases fuel with
    | zero => exact absurd hfl (by simp only [pFuelPairs]; omega)
    | succ f2 =>
      show pMembers (f2 + 1) (printString k2 ++
          (':' :: compactVal v2 ++ (compactMembers qs ++ '}' :: rest)))
          (mapInsert acc ⟨k.data⟩ v) =
        some (acc ++ (k, v) :: (k2, v2) :: qs, rest)
      rw [hacc]
      rw [pMembers_compact k2 v2 qs rest f2 (acc ++ [(k, v)]) hv2 hqs hfl hsafe
        hnd2 hfresh2]
      simp
termination_by fuel + 1
decreasing_by all_goals omega

end

end JsonEd

namespace JsonEd

lemma pVal_congr_ws (fuel : Nat) (l l' : List Char)
    (h : skipWs l = skipWs l') : pVal fuel l = pVal fuel l' := by
  cases fuel with
  | zero => rfl
  | succ f => exact pVal_congr_skipWs f h

lemma pElems_congr_ws (fuel : Nat) (l l' : List Char)
    (h : skipWs l = skipWs l') :
    pElems (fuel + 1) l = pElems (fuel + 1) l' := by
  simp only [pElems]
  rw [pVal_congr_ws fuel l l' h]

lemma pMembers_congr_ws (fuel : Nat) (l l' : List Char)
    (acc : List (String × JsonValue)) (h : skipWs l = skipWs l') :
    pMembers (fuel + 1) l acc = pMembers (fuel + 1) l' acc := by
  simp only [pMembers]
  rw [h]

mutual

theorem pVal_pretty (v : JsonValue) (ind : Nat) (rest : List Char) (fuel : Nat)
    (hv : validDoc v = true) (hfuel : pFuel v ≤ fuel) (hsafe : numSafe rest) :
    pVal fuel (prettyVal ind v ++ rest) = some (v, rest) := by
  cases fuel with
  | zero => exact absurd hfuel (by have := pFuel_pos v; omega)
  | succ f =>
    cases v with
    | null => exact pVal_compact .null rest (f + 1) hv hfuel hsafe
    | bool b => exact pVal_compact (.bool b) rest (f + 1) hv hfuel hsafe
    | num lit => exact pVal_compact (.num lit) rest (f + 1) hv hfuel hsafe
    | str s => exact pVal_compact (.str s) rest (f + 1) hv hfuel hsafe
    | arr xs =>
      cases xs with
      | nil => exact pVal_compact (.arr []) rest (f + 1) hv hfuel hsafe
      | cons x t =>
        have hx : validDoc x = true := by
          simp only [validDoc, validList, Bool.and_eq_true] at hv
          exact hv.1
        have ht : validList t = true := by
          simp only [validDoc, validList, Bool.and_eq_true] at hv
          exact hv.2
        have hshape : prettyVal ind (.arr (x :: t)) ++ rest =
            '[' :: '\n' :: (indentC (ind + 2) ++ (prettyVal (ind + 2) x ++
              (prettyElems (ind + 2) t ++
                ('\n' :: (indentC ind ++ (']' :: rest)))))) := by
          simp [prettyVal, List.append_assoc]
        rw [hshape]
        obtain ⟨c0, t0, hc0, hw0, hnb0, _⟩ := pretty_head (ind + 2) hx
        have hskip : skipWs ('\n' :: (indentC (ind + 2) ++
            (prettyVal (ind + 2) x ++ (prettyElems (ind + 2) t ++
              ('\n' :: (indentC ind ++ (']' :: rest))))))) =
            prettyVal (ind + 2) x ++ (prettyElems (ind + 2) t ++
              ('\n' :: (indentC ind ++ (']' :: rest)))) := by
          rw [skipWs_cons_of_ws _ (by decide), skipWs_indent]
          conv_lhs => rw [hc0, List.cons_append]
          rw [skipWs_cons_of_not _ hw0, ← List.cons_append, ← hc0]
        have hhead : (prettyVal (ind + 2) x ++ (prettyElems (ind + 2) t ++
            ('\n' :: (indentC ind ++ (']' :: rest))))).head? = some c0 := by
          rw [hc0]
          rfl
        show (if (skipWs ('\n' :: (indentC (ind + 2) ++
              (prettyVal (ind + 2) x ++ (prettyElems (ind + 2) t ++
                ('\n' :: (indentC ind ++ (']' :: rest)))))))).head? = some ']' then
            some (JsonValue.arr [],
              (skipWs ('\n' :: (indentC (ind + 2) ++
                (prettyVal (ind + 2) x ++ (prettyElems (ind + 2) t ++
                  ('\n' :: (indentC ind ++ (']' :: rest)))))))).tail)
          else
            (pElems f (skipWs ('\n' :: (indentC (ind + 2) ++
                (prettyVal (ind + 2) x ++ (prettyElems (ind + 2) t ++
                  ('\n' :: (indentC ind ++ (']' :: rest))))))))).map
              (fun p => (JsonValue.arr p.1, p.2))) = some (.arr (x :: t), rest)
        rw [hskip, hhead, if_neg (by simp [hnb0])]
        have hfl : pFuelList (x :: t) ≤ f := by
          simp only [pFuel] at hfuel
          omega
        cases f with
        | zero => exact absurd hfl (by simp only [pFuelList]; omega)
        | succ f2 =>
          rw [pElems_pretty x t (ind + 2)
            ('\n' :: (indentC ind ++ (']' :: rest))) rest f2 hx ht hfl
            (by rw [skipWs_cons_of_ws _ (by decide), skipWs_indent]
                exact skipWs_cons_of_not _ (by decide))
            (numSafe_cons _ (by decide)) hsafe]
          rfl
    | obj kvs =>
      cases kvs with
      | nil => exact pVal_compact (.obj []) rest (f + 1) hv hfuel hsafe
      | cons p t =>
        obtain ⟨k, v0⟩ := p
        have hx : validDoc v0 = true := by
          simp only [validDoc, validPairs, Bool.and_eq_true] at hv
          exact hv.2.1
        have ht : validPairs t = true := by
          simp only [validDoc, validPairs, Bool.and_eq_true] at hv
          exact hv.2.2
        have hnd : nodupKeys ((k, v0) :: t) = true := by
          simp only [validDoc, Bool.and_eq_true] at hv
          exact hv.1
        have hshape : prettyVal ind (.obj ((k, v0) :: t)) ++ rest =
            '{' :: '\n' :: (indentC (ind + 2) ++
              (prettyMember (ind + 2) (k, v0) ++ (prettyMembers (ind + 2) t ++
                ('\n' :: (indentC ind ++ ('}' :: rest)))))) := by
          simp [prettyVal, List.append_assoc]
        rw [hshape]
        have hY : prettyMember (ind + 2) (k, v0) ++ (prettyMembers (ind + 2) t ++
            ('\n' :: (indentC ind ++ ('}' :: rest)))) =
            '"' :: (escapeString k.data ++ '"' ::
              (':' :: ' ' :: (prettyVal (ind + 2) v0 ++
                (prettyMembers (ind + 2) t ++
                  ('\n' :: (indentC ind ++ ('}' :: rest))))))) := by
          simp [prettyMember, printString, List.append_assoc]
        have hskip : skipWs ('\n' :: (indentC (ind + 2) ++
            (prettyMember (ind + 2) (k, v0) ++ (prettyMembers (ind + 2) t ++
              ('\n' :: (indentC ind ++ ('}' :: rest))))))) =
            prettyMember (ind + 2) (k, v0) ++ (prettyMembers (ind + 2) t ++
              ('\n' :: (indentC ind ++ ('}' :: rest)))) := by
          rw [skipWs_cons_of_ws _ (by decide), skipWs_indent, hY,
            skipWs_cons_of_not _ (by decide)]
        have hhead : (prettyMember (ind + 2) (k, v0) ++
            (prettyMembers (ind + 2) t ++
              ('\n' :: (indentC ind ++ ('}' :: rest))))).head? = some '"' := by
          rw [hY]
          rfl
        show (if (skipWs ('\n' :: (indentC (ind + 2) ++
              (prettyMember (ind + 2) (k, v0) ++ (prettyMembers (ind + 2) t ++
                ('\n' :: (indentC ind ++ ('}' :: rest)))))))).head? = some '}' then
            some (JsonValue.obj [],
              (skipWs ('\n' :: (indentC (ind + 2) ++
                (prettyMember (ind + 2) (k, v0) ++ (prettyMembers (ind + 2) t ++
                  ('\n' :: (indentC ind ++ ('}' :: rest)))))))).tail)
          else
            (pMembers f (skipWs ('\n' :: (indentC (ind + 2) ++
                (prettyMember (ind + 2) (k, v0) ++ (prettyMembers (ind + 2) t ++
                  ('\n' :: (indentC ind ++ ('}' :: rest)))))))) []).map
              (fun p => (JsonValue.obj p.1, p.2))) =
          some (.obj ((k, v0) :: t), rest)
        rw [hskip, hhead, if_neg (by simp)]
        have hfl : pFuelPairs ((k, v0) :: t) ≤ f := by
          simp only [pFuel] at hfuel
          omega
        cases f with
        | zero => exact absurd hfl (by simp only [pFuelPairs]; omega)
        | succ f2 =>
          rw [pMembers_pretty k v0 t (ind + 2)
            ('\n' :: (indentC ind ++ ('}' :: rest))) rest f2 [] hx ht hfl
            (by rw [skipWs_cons_of_ws _ (by decide), skipWs_indent]
                exact skipWs_cons_of_not _ (by decide))
            (numSafe_cons _ (by decide)) hsafe hnd (fun p _ => rfl)]
          rfl
termination_by fuel

theorem pElems_pretty (x : JsonValue) (xs : List JsonValue) (ind : Nat)
    (T rest : List Char) (fuel : Nat) (hx : validDoc x = true)
    (hxs : validList xs = true) (hfuel : pFuelList (x :: xs) ≤ fuel + 1)
    (hT : skipWs T = ']' :: rest) (hTsafe : numSafe T) (hsafe : numSafe rest) :
    pElems (fuel + 1) (prettyVal ind x ++ (prettyElems ind xs ++ T)) =
      some (x :: xs, rest) := by
  have hsafe2 : numSafe (prettyElems ind xs ++ T) := by
    cases xs with
    | nil =>
      intro c hc
      exact hTsafe c (by simpa [prettyElems] using hc)
    | cons y ys => exact numSafe_cons _ (by decide)
  have hfx : pFuel x ≤ fuel := by
    simp only [pFuelList] at hfuel
    omega
  show (match pVal fuel (prettyVal ind x ++ (prettyElems ind xs ++ T)) with
    | some (v, r) =>
      match skipWs r with
      | ',' :: r2 => (pElems fuel r2).map (fun p => (v :: p.1, p.2))
      | ']' :: r2 => some ([v], r2)
      | _ => none
    | none => none) = some (x :: xs, rest)
  rw [pVal_pretty x ind (prettyElems ind xs ++ T) fuel hx hfx hsafe2]
  cases xs with
  | nil =>
    show (match skipWs T with
      | ',' :: r2 => (pElems fuel r2).map (fun p => (x :: p.1, p.2))
      | ']' :: r2 => some ([x], r2)
      | _ => none) = some ([x], rest)
    rw [hT]
    rfl
  | cons y ys =>
    have hy : validDoc y = true := by
      simp only [validList, Bool.and_eq_true] at hxs
      exact hxs.1
    have hys : validList ys = true := by
      simp only [validList, Bool.and_eq_true] at hxs
      exact hxs.2
    show (match skipWs (prettyElems ind (y :: ys) ++ T) with
      | ',' :: r2 => (pElems fuel r2).map (fun p => (x :: p.1, p.2))
      | ']' :: r2 => some ([x], r2)
      | _ => none) = some (x :: y :: ys, rest)
    have hsh : prettyElems ind (y :: ys) ++ T =
        ',' :: '\n' :: (indentC ind ++
          (prettyVal ind y ++ (prettyElems ind ys ++ T))) := by
      simp [prettyElems, List.append_assoc]
    rw [hsh]
    show (pElems fuel ('\n' :: (indentC ind ++
        (prettyVal ind y ++ (prettyElems ind ys ++ T))))).map
      (fun p => (x :: p.1, p.2)) = some (x :: y :: ys, rest)
    have hfl : pFuelList (y :: ys) ≤ fuel := by
      simp only [pFuelList] at hfuel ⊢
      omega
    cases fuel with
    | zero => exact absurd hfl (by simp only [pFuelList]; omega)
    | succ f2 =>
      rw [pElems_congr_ws f2
        ('\n' :: (indentC ind ++ (prettyVal ind y ++ (prettyElems ind ys ++ T))))
        (prettyVal ind y ++ (prettyElems ind ys ++ T))
        (by rw [skipWs_cons_of_ws _ (by decide), skipWs_indent])]
      rw [pElems_pretty y ys ind T rest f2 hy hys hfl hT hTsafe hsafe]
      rfl
termination_by fuel + 1

theorem pMembers_pretty (k : String) (v : JsonValue)
    (kvs : List (String × JsonValue)) (ind : Nat) (T rest : List Char)
    (fuel : Nat) (acc : List (String × JsonValue)) (hv : validDoc v = true)
    (hkvs : validPairs kvs = true)
    (hfuel : pFuelPairs ((k, v) :: kvs) ≤ fuel + 1)
    (hT : skipWs T = '}' :: rest) (hTsafe : numSafe T) (hsafe : numSafe rest)
    (hnd : nodupKeys ((k, v) :: kvs) = true)
    (hfresh : ∀ p ∈ (k, v) :: kvs, mapGet acc p.1 = none) :
    pMembers (fuel + 1)
        (prettyMember ind (k, v) ++ (prettyMembers ind kvs ++ T)) acc =
      some (acc ++ (k, v) :: kvs, rest) := by
  have hshape : prettyMember ind (k, v) ++ (prettyMembers ind kvs ++ T) =
      '"' :: (escapeString k.data ++ '"' ::
        (':' :: ' ' :: (prettyVal ind v ++ (prettyMembers ind kvs ++ T)))) := by
    simp [prettyMember, printString, List.append_assoc]
  rw [hshape]
  show (match pString (escapeString k.data ++ '"' ::
      (':' :: ' ' :: (prettyVal ind v ++ (prettyMembers ind kvs ++ T)))) with
    | some (kcs, r2) =>
      match skipWs r2 with
      | ':' :: r3 =>
        match pVal fuel r3 with
        | some (v2, r4) =>
          let acc' := mapInsert acc ⟨kcs⟩ v2
          match skipWs r4 with
          | ',' :: r5 => pMembers fuel r5 acc'
          | '}' :: r5 => some (acc', r5)
          | _ => none
        | none => none
      | _ => none
    | none => none) = some (acc ++ (k, v) :: kvs, rest)
  rw [pString_escape]
  show (match skipWs (':' :: ' ' ::
      (prettyVal ind v ++ (prettyMembers ind kvs ++ T))) with
    | ':' :: r3 =>
      match pVal fuel r3 with
      | some (v2, r4) =>
        let acc' := mapInsert acc ⟨k.data⟩ v2
        match skipWs r4 with
        | ',' :: r5 => pMembers fuel r5 acc'
        | '}' :: r5 => some (acc', r5)
        | _ => none
      | none => none
    | _ => none) = some (acc ++ (k, v) :: kvs, rest)
  rw [show skipWs (':' :: ' ' ::
      (prettyVal ind v ++ (prettyMembers ind kvs ++ T))) =
    ':' :: ' ' :: (prettyVal ind v ++ (prettyMembers ind kvs ++ T)) from rfl]
  show (match pVal fuel (' ' ::
      (prettyVal ind v ++ (prettyMembers ind kvs ++ T))) with
    | some (v2, r4) =>
      match skipWs r4 with
      | ',' :: r5 => pMembers fuel r5 (mapInsert acc ⟨k.data⟩ v2)
      | '}' :: r5 => some (mapInsert acc ⟨k.data⟩ v2, r5)
      | _ => none
    | none => none) = some (acc ++ (k, v) :: kvs, rest)
  have hsafe2 : numSafe (prettyMembers ind kvs ++ T) := by
    cases kvs with
    | nil =>
      intro c hc
      exact hTsafe c (by simpa [prettyMembers] using hc)
    | cons q qs => exact numSafe_cons _ (by decide)
  have hfv : pFuel v ≤ fuel := by
    simp only [pFuelPairs] at hfuel
    omega
  have hpv : pVal fuel (' ' :: (prettyVal ind v ++ (prettyMembers ind kvs ++ T))) =
      some (v, prettyMembers ind kvs ++ T) := by
    rw [pVal_congr_ws fuel
      (' ' :: (prettyVal ind v ++ (prettyMembers ind kvs ++ T)))
      (prettyVal ind v ++ (prettyMembers ind kvs ++ T))
      (by rw [skipWs_cons_of_ws _ (by decide)])]
    exact pVal_pretty v ind (prettyMembers ind kvs ++ T) fuel hv hfv hsafe2
  rw [hpv]
  have hkfresh : mapGet acc k = none := hfresh (k, v) (by simp)
  have hacc : mapInsert acc (⟨k.data⟩ : String) v = acc ++ [(k, v)] := by
    rw [strMk_data]
    exact mapInsert_fresh k v acc hkfresh
  cases kvs with
  | nil =>
    show (match skipWs (prettyMembers ind [] ++ T) with
      | ',' :: r5 => pMembers fuel r5 (mapInsert acc ⟨k.data⟩ v)
      | '}' :: r5 => some (mapInsert acc ⟨k.data⟩ v, r5)
      | _ => none) = some (acc ++ [(k, v)], rest)
    rw [show prettyMembers ind ([] : List (String × JsonValue)) ++ T = T from
      by simp [prettyMembers]]
    rw [hT, hacc]
    rfl
  | cons q qs =>
    obtain ⟨k2, v2⟩ := q
    have hv2 : validDoc v2 = true := by
      simp only [validPairs, Bool.and_eq_true] at hkvs
      exact hkvs.1
    have hqs : validPairs qs = true := by
      simp only [validPairs, Bool.and_eq_true] at hkvs
      exact hkvs.2
    have hshape2 : prettyMembers ind ((k2, v2) :: qs) ++ T =
        ',' :: '\n' :: (indentC ind ++ (prettyMember ind (k2, v2) ++
          (prettyMembers ind qs ++ T))) := by
      simp [prettyMembers, List.append_assoc]
    rw [hshape2]
    show (pMembers fuel ('\n' :: (indentC ind ++ (prettyMember ind (k2, v2) ++
        (prettyMembers ind qs ++ T)))) (mapInsert acc ⟨k.data⟩ v)) =
      some (acc ++ (k, v) :: (k2, v2) :: qs, rest)
    have hfl : pFuelPairs ((k2, v2) :: qs) ≤ fuel := by
      simp only [pFuelPairs] at hfuel ⊢
      omega
    have hnd2 : nodupKeys ((k2, v2) :: qs) = true := by
      simp only [nodupKeys, Bool.and_eq_true] at hnd ⊢
      exact hnd.2
    have hfresh2 : ∀ p ∈ (k2, v2) :: qs, mapGet (acc ++ [(k, v)]) p.1 = none := by
      intro p hp
      rw [mapGet_append_singleton]
      rw [hfresh p (by simp [hp])]
      have hkp : k ≠ p.1 := by
        simp only [nodupKeys, Bool.and_eq_true, Bool.not_eq_true'] at hnd
        intro hk
        have : ((k2, v2) :: qs).any (fun q => q.1 = k) = true := by
          apply List.any_eq_true.mpr
          exact ⟨p, hp, by simp [hk]⟩
        rw [this] at hnd
        exact absurd hnd.1 (by decide)
      simp [hkp]
    cases fuel with
    | zero => exact absurd hfl (by simp only [pFuelPairs]; omega)
    | succ f2 =>
      rw [hacc]
      rw [pMembers_congr_ws f2
        ('\n' :: (indentC ind ++ (prettyMember ind (k2, v2) ++
          (prettyMembers ind qs ++ T))))
        (prettyMember ind (k2, v2) ++ (prettyMembers ind qs ++ T))
        (acc ++ [(k, v)])
        (by rw [skipWs_cons_of_ws _ (by decide), skipWs_indent])]
      rw [pMembers_pretty k2 v2 qs ind T rest f2 (acc ++ [(k, v)]) hv2 hqs hfl
        hT hTsafe hsafe hnd2 hfresh2]
      simp
termination_by fuel + 1

end

end JsonEd

namespace JsonEd

/-! ### The compact form is whitespace-free (outside string payloads) -/

lemma hexDig_not_ws (n : Nat) : isWs (hexDig n) = false := by
  unfold hexDig
  split <;> decide

lemma escapeChar_not_ws {c : Char} (h : isWs c = false) :
    ∀ c' ∈ escapeChar c, isWs c' = false := by
  intro c' hc'
  unfold escapeChar at hc'
  split_ifs at hc' with h1 h2 h3 h4 h5 h6 h7 h8
  · simp at hc'; rcases hc' with rfl | rfl <;> decide
  · simp at hc'; rcases hc' with rfl | rfl <;> decide
  · simp at hc'; rcases hc' with rfl | rfl <;> decide
  · simp at hc'; rcases hc' with rfl | rfl <;> decide
  · simp at hc'; rcases hc' with rfl | rfl <;> decide
  · simp at hc'; rcases hc' with rfl | rfl <;> decide
  · simp at hc'; rcases hc' with rfl | rfl <;> decide
  · rcases List.mem_cons.mp hc' with rfl | hc'
    · decide
    rcases List.mem_cons.mp hc' with rfl | hc'
    · decide
    rcases List.mem_cons.mp hc' with rfl | hc'
    · decide
    rcases List.mem_cons.mp hc' with rfl | hc'
    · decide
    rcases List.mem_cons.mp hc' with rfl | hc'
    · exact hexDig_not_ws _
    rcases List.mem_cons.mp hc' with rfl | hc'
    · exact hexDig_not_ws _
    · exact absurd hc' (List.not_mem_nil c')
  · simp at hc'
    subst hc'
    exact h

lemma escapeString_not_ws (d : List Char) (h : ∀ c ∈ d, isWs c = false) :
    ∀ c' ∈ escapeString d, isWs c' = false := by
  induction d with
  | nil => intro c' hc'; simp [escapeString] at hc'
  | cons c rest ih =>
    intro c' hc'
    simp only [escapeString, List.mem_append] at hc'
    rcases hc' with hc' | hc'
    · exact escapeChar_not_ws (h c (by simp)) c' hc'
    · exact ih (fun a ha => h a (by simp [ha])) c' hc'

lemma printString_not_ws (s : String)
    (h : s.data.all (fun c => !isWs c) = true) :
    ∀ c ∈ printString s, isWs c = false := by
  intro c hc
  simp only [printString, List.mem_cons, List.mem_append,
    List.mem_singleton, List.not_mem_nil, or_false] at hc
  rcases hc with rfl | (hc | rfl)
  · decide
  · exact escapeString_not_ws s.data
      (fun a ha => by simpa using List.all_eq_true.mp h a ha) c hc
  · decide

theorem wsFree_bundle (n : Nat) :
    (∀ v : JsonValue, pFuel v ≤ n → wsFreeStrings v = true →
      ∀ c ∈ compactVal v, isWs c = false) ∧
    (∀ xs : List JsonValue, pFuelList xs ≤ n → wsFreeList xs = true →
      ∀ c ∈ compactElems xs, isWs c = false) ∧
    (∀ kvs : List (String × JsonValue), pFuelPairs kvs ≤ n →
      wsFreePairs kvs = true →
      ∀ c ∈ compactMembers kvs, isWs c = false) := by
  induction n using Nat.strong_induction_on with
  | _ n ih =>
  refine ⟨?_, ?_, ?_⟩
  · intro v hsz hws c hc
    cases v with
    | null =>
      simp only [compactVal] at hc
      fin_cases hc <;> decide
    | bool b =>
      cases b <;> simp only [compactVal] at hc <;> fin_cases hc <;> decide
    | num lit =>
      simp only [wsFreeStrings] at hws
      simp only [compactVal] at hc
      simpa using List.all_eq_true.mp hws c hc
    | str s =>
      simp only [wsFreeStrings] at hws
      simp only [compactVal] at hc
      exact printString_not_ws s hws c hc
    | arr xs =>
      cases xs with
      | nil =>
        simp only [compactVal] at hc
        fin_cases hc <;> decide
      | cons x t =>
        simp only [wsFreeStrings, wsFreeList, Bool.and_eq_true] at hws
        simp only [compactVal, List.mem_cons, List.mem_append,
          List.mem_singleton, List.not_mem_nil, or_false] at hc
        have hszx : pFuel x < n := by
          simp only [pFuel, pFuelList] at hsz
          omega
        have hszt : pFuelList t < n := by
          simp only [pFuel, pFuelList] at hsz
          omega
        rcases hc with rfl | ((h | h) | rfl)
        · decide
        · exact (ih (pFuel x) hszx).1 x le_rfl hws.1 c h
        · exact (ih (pFuelList t) hszt).2.1 t le_rfl hws.2 c h
        · decide
    | obj kvs =>
      cases kvs with
      | nil =>
        simp only [compactVal] at hc
        fin_cases hc <;> decide
      | cons p ps =>
        obtain ⟨k, v0⟩ := p
        simp only [wsFreeStrings, wsFreePairs, Bool.and_eq_true] at hws
        simp only [compactVal, compactMember, List.mem_cons, List.mem_append,
          List.mem_singleton, List.not_mem_nil, or_false] at hc
        have hszv : pFuel v0 < n := by
          simp only [pFuel, pFuelPairs] at hsz
          omega
        have hszt : pFuelPairs ps < n := by
          simp only [pFuel, pFuelPairs] at hsz
          omega
        rcases hc with rfl | (((h | (rfl | h)) | h) | rfl)
        · decide
        · exact printString_not_ws k hws.1.1 c h
        · decide
        · exact (ih (pFuel v0) hszv).1 v0 le_rfl hws.1.2 c h
        · exact (ih (pFuelPairs ps) hszt).2.2 ps le_rfl hws.2 c h
        · decide
  · intro xs hsz hws c hc
    cases xs with
    | nil => simp [compactElems] at hc
    | cons x t =>
      simp only [wsFreeList, Bool.and_eq_true] at hws
      simp only [compactElems, List.mem_cons, List.mem_append,
        List.not_mem_nil, or_false] at hc
      have hszx : pFuel x < n := by
        simp only [pFuelList] at hsz
        omega
      have hszt : pFuelList t < n := by
        simp only [pFuelList] at hsz
        omega
      rcases hc with rfl | (h | h)
      · decide
      · exact (ih (pFuel x) hszx).1 x le_rfl hws.1 c h
      · exact (ih (pFuelList t) hszt).2.1 t le_rfl hws.2 c h
  · intro kvs hsz hws c hc
    cases kvs with
    | nil => simp [compactMembers] at hc
    | cons p ps =>
      obtain ⟨k, v0⟩ := p
      simp only [wsFreePairs, Bool.and_eq_true] at hws
      simp only [compactMembers, compactMember, List.mem_cons,
        List.mem_append, List.not_mem_nil, or_false] at hc
      have hszv : pFuel v0 < n := by
        simp only [pFuelPairs] at hsz
        omega
      have hszt : pFuelPairs ps < n := by
        simp only [pFuelPairs] at hsz
        omega
      rcases hc with rfl | ((h | (rfl | h)) | h)
      · decide
      · exact printString_not_ws k hws.1.1 c h
      · decide
      · exact (ih (pFuel v0) hszv).1 v0 le_rfl hws.1.2 c h
      · exact (ih (pFuelPairs ps) hszt).2.2 ps le_rfl hws.2 c h

end JsonEd

namespace JsonEd

/-- C3: Serialization round-trip.  For every valid `JsonValue` `v`,
parsing the pretty-printed form of `v` and parsing the compacted form of
`v` each yield `v` itself (equality of the embedding is structural, so
object key order is preserved); when the string payloads, keys and
number lexemes of `v` contain no whitespace, the compact form contains
no whitespace character at all; and the pretty form uses the fixed
2-space indent, as witnessed by its shape on a one-member object. -/
theorem claim3_roundtrip :
    (∀ v : JsonValue, validDoc v = true →
      parseJson (prettyPrintValue v) = some v ∧
      parseJson (compactPrint v) = some v ∧
      (wsFreeStrings v = true →
        ∀ c ∈ (compactPrint v).data, isWs c = false)) ∧
    prettyPrintValue (.obj [("k", .null)]) = "\x7b\n  \"k\": null\n\x7d" := by
  refine ⟨?_, rfl⟩
  intro v hv
  refine ⟨?_, ?_, ?_⟩
  · show (match pVal (3 * (prettyPrintValue v).length + 3)
        (prettyPrintValue v).data with
      | some (w, rest) => if (skipWs rest).isEmpty then some w else none
      | none => none) = some v
    rw [show (prettyPrintValue v).data = prettyVal 0 v from rfl,
      show (prettyPrintValue v).length = (prettyVal 0 v).length from rfl]
    have h1 : pVal (3 * (prettyVal 0 v).length + 3) (prettyVal 0 v ++ []) =
        some (v, []) :=
      pVal_pretty v 0 [] _ hv
        (by have := pFuel_le_pretty v 0 hv; omega) numSafe_nil
    rw [List.append_nil] at h1
    rw [h1]
    rfl
  · show (match pVal (3 * (compactPrint v).length + 3)
        (compactPrint v).data with
      | some (w, rest) => if (skipWs rest).isEmpty then some w else none
      | none => none) = some v
    rw [show (compactPrint v).data = compactVal v from rfl,
      show (compactPrint v).length = (compactVal v).length from rfl]
    have h1 : pVal (3 * (compactVal v).length + 3) (compactVal v ++ []) =
        some (v, []) :=
      pVal_compact v [] _ hv
        (by have := pFuel_le_compact v hv; omega) numSafe_nil
    rw [List.append_nil] at h1
    rw [h1]
    rfl
  · intro hws
    exact (wsFree_bundle (pFuel v)).1 v le_rfl hws

/-- Witness: the round trip evaluated on a concrete document with an
object, an array, every primitive kind and a nested key. -/
theorem claim3_roundtrip_witness :
    validDoc (JsonValue.obj
      [("a", JsonValue.num "12"),
       ("b", JsonValue.arr
         [JsonValue.null, JsonValue.bool true, JsonValue.str "x"])]) = true ∧
    (parseJson (prettyPrintValue (JsonValue.obj
      [("a", JsonValue.num "12"),
       ("b", JsonValue.arr
         [JsonValue.null, JsonValue.bool true, JsonValue.str "x"])])) =
      some (JsonValue.obj
      [("a", JsonValue.num "12"),
       ("b", JsonValue.arr
         [JsonValue.null, JsonValue.bool true, JsonValue.str "x"])]) ∧
     parseJson (compactPrint (JsonValue.obj
      [("a", JsonValue.num "12"),
       ("b", JsonValue.arr
         [JsonValue.null, JsonValue.bool true, JsonValue.str "x"])])) =
      some (JsonValue.obj
      [("a", JsonValue.num "12"),
       ("b", JsonValue.arr
         [JsonValue.null, JsonValue.bool true, JsonValue.str "x"])]) ∧
     (wsFreeStrings (JsonValue.obj
      [("a", JsonValue.num "12"),
       ("b", JsonValue.arr
         [JsonValue.null, JsonValue.bool true, JsonValue.str "x"])]) = true →
      ∀ c ∈ (compactPrint (JsonValue.obj
      [("a", JsonValue.num "12"),
       ("b", JsonValue.arr
         [JsonValue.null, JsonValue.bool true, JsonValue.str "x"])])).data,
        isWs c = false)) :=
  ⟨by decide, claim3_roundtrip.1 (JsonValue.obj
      [("a", JsonValue.num "12"),
       ("b", JsonValue.arr
         [JsonValue.null, JsonValue.bool true, JsonValue.str "x"])])
    (by decide)⟩

end JsonEd
